import Mathlib

/-!
# Verification of the DPLL SAT solver in `solver.py`

Shallow embedding of the solver of `SAT_Assignment2/solver.py` into Lean 4.

Modelling conventions:
* Python `int` literals are Lean `Int`; the number of variables is a `Nat`.
* A Python clause `Set[int]` is a duplicate-free `List Int` (`Clause`); the
  Python set constructor `set(c)` becomes `List.dedup`.  Python's set
  iteration order is unspecified (hash based), so any fixed order is a
  valid refinement; list order is used.
* A Python `Dict[int, bool]` assignment is an association list
  `List (Int × Bool)` looked up with `List.lookup` (first match).  The
  solver only ever inserts a key after checking it is absent, so
  appending (`insertA`) coincides with Python dict insertion.
* The `while True` loop of `_unit_propagate` can diverge on inputs whose
  unit clauses are already consistently assigned (every pass skips all
  unit literals and makes no progress), so it is embedded with an
  explicit fuel parameter returning `Option`; `none` means the fuel ran
  out before the Python loop would have exited.  `_dpll` similarly takes
  recursion fuel.  `solve_cnf` supplies fuels that are proved sufficient
  for every run starting from the empty assignment.
* `_pure_literal_elim`'s loop always terminates (each nonempty round
  removes at least one clause), so it is run with fuel `cs.length + 1`,
  which is proved to make the fuel bound unreachable
  (`pureElimLoop_fuel_irrelevant`).
-/

/-- A literal: a nonzero integer whose absolute value names a variable. -/
abbrev Lit := Int

/-- A clause: Python `Set[int]`, modelled as a duplicate-free list of literals. -/
abbrev Clause := List Lit

/-- A partial assignment: Python `Dict[int, bool]`, modelled as an
association list keyed by (positive) variables, looked up first-match. -/
abbrev Assignment := List (Int × Bool)

/-- Python `assignment[var] = val` for a key that is not yet present
(dicts keep insertion order, so the new binding goes at the end). -/
def insertA (a : Assignment) (v : Int) (b : Bool) : Assignment :=
  a ++ [(v, b)]

/-- `_clauses_to_sets`: convert list-of-lists clauses to list-of-sets. -/
def _clauses_to_sets (clauses : List (List Int)) : List Clause :=
  clauses.map List.dedup

/-- `_contains_empty_clause`: `any(len(c) == 0 for c in clauses)`. -/
def _contains_empty_clause (clauses : List Clause) : Bool :=
  clauses.any (·.isEmpty)

/-- The unit-literal gathering scan of `_unit_propagate`: the literal of
every clause of size exactly 1, in clause order. -/
def unitLits (clauses : List Clause) : List Lit :=
  clauses.filterMap fun c =>
    match c with
    | [l] => some l
    | _ => none

/-- The clause simplification performed by `_unit_propagate` after
assigning literal `lit` true: drop clauses containing `lit`, remove
`-lit` from the others; `none` signals the early conflict return taken
when a clause becomes empty. -/
def simplifyUnit (lit : Lit) : List Clause → Option (List Clause)
  | [] => some []
  | c :: cs =>
    if lit ∈ c then simplifyUnit lit cs
    else if -lit ∈ c then
      let c' := c.erase (-lit)
      if c'.isEmpty then none
      else (simplifyUnit lit cs).map (c' :: ·)
    else (simplifyUnit lit cs).map (c :: ·)

/-- The inner `for lit in unit_lits` loop of `_unit_propagate`.  Result
flag `true` is the conflict early return (which keeps the clause list
current at that moment). -/
def processUnits : List Lit → List Clause → Assignment → List Clause × Assignment × Bool
  | [], cs, a => (cs, a, false)
  | lit :: rest, cs, a =>
    match List.lookup |lit| a with
    | some b =>
      if b = decide (0 < lit) then processUnits rest cs a
      else (cs, a, true)
    | none =>
      let a' := insertA a |lit| (decide (0 < lit))
      match simplifyUnit lit cs with
      | none => (cs, a', true)
      | some cs' => processUnits rest cs' a'

/-- `_unit_propagate`: repeat the unit scan until a pass finds no unit
clause, with explicit fuel for the `while True` loop. -/
def _unit_propagate : Nat → List Clause → Assignment → Option (List Clause × Assignment × Bool)
  | 0, _, _ => none
  | fuel + 1, cs, a =>
    let units := unitLits cs
    if units.isEmpty then some (cs, a, false)
    else
      match processUnits units cs a with
      | (cs', a', true) => some (cs', a', true)
      | (cs', a', false) => _unit_propagate fuel cs' a'

/-- Positive occurrence count of variable `v` (`pos_occ` / `pos_count`):
literals `lit` with `abs(lit) = v` and `lit > 0`, summed over the clauses. -/
def posCnt (clauses : List Clause) (v : Int) : Nat :=
  (clauses.map (fun c => c.countP (fun l => decide (0 < l ∧ |l| = v)))).sum

/-- Negative occurrence count of variable `v` (`neg_occ` / `neg_count`):
literals `lit` with `abs(lit) = v` and not `lit > 0`, summed over the
clauses (Python's `if lit > 0 ... else ...` sends a literal `0` here). -/
def negCnt (clauses : List Clause) (v : Int) : Nat :=
  (clauses.map (fun c => c.countP (fun l => decide (¬ 0 < l ∧ |l| = v)))).sum

/-- The candidate variables of `_pure_literal_elim`'s detection phase:
unassigned variables occurring in the clauses (the keys of
`pos_occ`/`neg_occ`; Python iterates them in unspecified set order,
modelled by a fixed deduplicated order). -/
def candVars (clauses : List Clause) (a : Assignment) : List Int :=
  ((clauses.flatten.map (fun l => |l|)).filter (fun v => (List.lookup v a).isNone)).dedup

/-- The `pure_vars` list of one round of `_pure_literal_elim`. -/
def detectPures (clauses : List Clause) (a : Assignment) : List (Int × Bool) :=
  (candVars clauses a).filterMap fun v =>
    let p := posCnt clauses v
    let n := negCnt clauses v
    if 0 < p ∧ n = 0 then some (v, true)
    else if 0 < n ∧ p = 0 then some (v, false)
    else none

/-- The assign-and-simplify loop over `pure_vars`: record the assignment
and drop every clause containing the pure literal (clauses containing
the opposite literal are kept unchanged). -/
def applyPures : List (Int × Bool) → List Clause → Assignment → List Clause × Assignment
  | [], cs, a => (cs, a)
  | (v, val) :: rest, cs, a =>
    let lit : Lit := if val then v else -v
    applyPures rest (cs.filter (fun c => ¬ lit ∈ c)) (insertA a v val)

/-- The `while` loop of `_pure_literal_elim` with explicit fuel: detect
pure variables, assign them, drop the clauses they satisfy, repeat until
none remain.  (Fuel `cs.length + 1` always suffices, because each
nonempty round removes at least one clause; see
`pureElimLoop_fuel_irrelevant`.) -/
def pureElimLoop : Nat → List Clause → Assignment → List Clause × Assignment
  | 0, cs, a => (cs, a)
  | fuel + 1, cs, a =>
    if detectPures cs a = [] then (cs, a)
    else
      pureElimLoop fuel (applyPures (detectPures cs a) cs a).1
        (applyPures (detectPures cs a) cs a).2

/-- `_pure_literal_elim`: repeatedly detect pure variables, assign them,
and drop the clauses they satisfy, until none remain. -/
def _pure_literal_elim (cs : List Clause) (a : Assignment) : List Clause × Assignment :=
  pureElimLoop (cs.length + 1) cs a

/-- The variable scan of `_choose_branch_var`: `range(1, num_vars + 1)`. -/
def varRange (numVars : Nat) : List Int :=
  (List.range numVars).map (fun i => Int.ofNat i + 1)

/-- The accumulator loop of `_choose_branch_var`: state is
`(best_var, best_score, best_pref)`, updated when `score > best_score`. -/
def cbvGo (cs : List Clause) (a : Assignment) : List Int → Option Int × Int × Bool → Option Int × Int × Bool
  | [], st => st
  | v :: vs, st =>
    if (List.lookup v a).isSome then cbvGo cs a vs st
    else
      let p := posCnt cs v
      let n := negCnt cs v
      let score : Int := (p : Int) + (n : Int)
      if st.2.1 < score then cbvGo cs a vs (some v, score, decide (n ≤ p))
      else cbvGo cs a vs st

/-- `_choose_branch_var`: DLCS-like heuristic; scans every variable
`1..num_vars`, skipping assigned ones, keeping the first one whose
`p + n` score strictly exceeds the best so far (initially `-1`). -/
def _choose_branch_var (cs : List Clause) (a : Assignment) (numVars : Nat) : Option Int × Bool :=
  let st := cbvGo cs a (varRange numVars) (none, -1, true)
  (st.1, st.2.2)

/-- `_simplify_after_assignment`: with literal `lit` made true, remove
satisfied clauses and remove `-lit` from the remaining clauses; does not
detect empty clauses. -/
def _simplify_after_assignment (cs : List Clause) (lit : Lit) : List Clause :=
  cs.filterMap fun c =>
    if lit ∈ c then none
    else if -lit ∈ c then some (c.erase (-lit))
    else some c

/-- `_build_model`: DIMACS-style model over variables `1..num_vars`,
unassigned variables defaulting to false. -/
def _build_model (a : Assignment) (numVars : Nat) : List Int :=
  (List.range numVars).map fun i =>
    let v : Int := Int.ofNat i + 1
    if (List.lookup v a).getD false then v else -v

/-- Fuel supplied to `_unit_propagate`: one pass more than the number of
distinct variables mentioned in the clauses (each productive pass
assigns a fresh clause variable, so this always suffices when no clause
mentions an already-assigned variable). -/
def upFuel (cs : List Clause) : Nat :=
  (cs.flatten.map (fun l => |l|)).dedup.length + 1

/-- `_dpll`: the recursive search driver, with explicit recursion fuel
(one level is consumed per branching decision; `num_vars + 1` suffices
from an empty assignment). -/
def _dpll : Nat → List Clause → Assignment → Nat → Option (Bool × Assignment)
  | 0, _, _, _ => none
  | fuel + 1, cs, a, numVars =>
    match _unit_propagate (upFuel cs) cs a with
    | none => none
    | some (_, _, true) => some (false, [])
    | some (cs1, a1, false) =>
      let pe := _pure_literal_elim cs1 a1
      if pe.1.isEmpty then some (true, pe.2)
      else if _contains_empty_clause pe.1 then some (false, [])
      else
        match _choose_branch_var pe.1 pe.2 numVars with
        | (none, _) => some (false, [])
        | (some v, pref) =>
          let lit1 : Lit := if pref then v else -v
          let cs3 := _simplify_after_assignment pe.1 lit1
          let r1 :=
            if _contains_empty_clause cs3 then some (false, ([] : Assignment))
            else _dpll fuel cs3 (insertA pe.2 v pref) numVars
          match r1 with
          | none => none
          | some (true, fa) => some (true, fa)
          | some (false, _) =>
            let lit2 : Lit := if pref then -v else v
            let cs4 := _simplify_after_assignment pe.1 lit2
            let r2 :=
              if _contains_empty_clause cs4 then some (false, ([] : Assignment))
              else _dpll fuel cs4 (insertA pe.2 v (!pref)) numVars
            match r2 with
            | none => none
            | some (true, fa) => some (true, fa)
            | some (false, _) => some (false, [])

/-- The working `solve_cnf` implementation (the first definition in the
source): convert the clauses to sets, run `_dpll` from the empty
assignment, and build the model on success.  The fuel `num_vars + 1` is
proved sufficient below, so `none` (fuel exhaustion) never occurs on the
runs this function performs. -/
def solve_cnf (clauses : List (List Int)) (numVars : Nat) : Option (String × Option (List Int)) :=
  match _dpll (numVars + 1) (_clauses_to_sets clauses) [] numVars with
  | none => none
  | some (true, a) => some ("SAT", some (_build_model a numVars))
  | some (false, _) => some ("UNSAT", none)

/-- Result of calling a Python function that may raise: either a
returned value or a raised exception, identified by its class name. -/
inductive PyResult (α : Type) : Type
  | ok (val : α)
  | raised (exnClass : String)
deriving DecidableEq

/-- The second `solve_cnf` definition in `solver.py` (lines 264–271):
the assignment-template stub whose body is `raise NotImplementedError`. -/
def solve_cnf_stub (_clauses : List (List Int)) (_numVars : Nat) :
    PyResult (String × Option (List Int)) :=
  PyResult.raised "NotImplementedError"

/-- The binding the module exports under the name `solve_cnf`: Python
executes `def` statements in order, so the second (stub) definition at
line 264 rebinds the name and shadows the working implementation at
line 245. -/
def solve_cnf_module : List (List Int) → Nat → PyResult (String × Option (List Int)) :=
  solve_cnf_stub

/-- A total valuation of the variables (each positive integer gets a
Boolean; values at other points are irrelevant). -/
abbrev Valu := Int → Bool

/-- Truth of a literal under a total valuation: a positive literal
asserts its variable, a non-positive one negates it. -/
def litEval (α : Valu) (l : Lit) : Bool :=
  if 0 < l then α l else !α (-l)

/-- Truth of a clause: some literal is true. -/
def clauseEval (α : Valu) (c : Clause) : Bool :=
  c.any (litEval α)

/-- Truth of a whole formula: every clause is true. -/
def formulaSat (α : Valu) (cs : List Clause) : Prop :=
  ∀ c ∈ cs, clauseEval α c = true

/-- `a'` is a consistent extension of `a`: it agrees with `a` on every
variable `a` assigns. -/
def extendsA (a a' : Assignment) : Prop :=
  ∀ v b, List.lookup v a = some b → List.lookup v a' = some b

/-- A total valuation respects a partial assignment when it agrees with
it on every assigned variable. -/
def respects (α : Valu) (a : Assignment) : Prop :=
  ∀ v b, List.lookup v a = some b → α v = b

/-- The DLCS score `p + n` of a variable, as the `Int` the heuristic
compares against the running best (initially `-1`). -/
def dlcsScore (cs : List Clause) (v : Int) : Int :=
  (posCnt cs v : Int) + (negCnt cs v : Int)

/-- The invariant maintained on every state `_dpll` recurses into:
clauses are genuine sets (no duplicate literals) and no clause mentions
an already-assigned variable (satisfied clauses are always dropped and
falsified literals stripped as soon as a variable is assigned). -/
def cleanState (a : Assignment) (cs : List Clause) : Prop :=
  (∀ c ∈ cs, c.Nodup) ∧ (∀ c ∈ cs, ∀ l ∈ c, List.lookup |l| a = none)

/-- The set of variables mentioned by a clause list (the measure that
strictly decreases across productive passes of `_unit_propagate`). -/
def varsF (cs : List Clause) : Finset Int :=
  (cs.flatten.map (fun l => |l|)).toFinset

/-- How many variables of `1..num_vars` are still unassigned (the
measure that strictly decreases across `_dpll` branch decisions). -/
def unassignedCount (a : Assignment) (numVars : Nat) : Nat :=
  ((Finset.range numVars).filter (fun i => (List.lookup (Int.ofNat i + 1) a).isNone)).card

-- MOVED_THEOREMS

theorem applyPures_fst_length_le (ps : List (Int × Bool)) (cs : List Clause) (a : Assignment) :
    (applyPures ps cs a).1.length ≤ cs.length := by
  induction ps generalizing cs a with
  | nil => simp [applyPures]
  | cons p rest ih =>
    obtain ⟨v, val⟩ := p
    simp only [applyPures]
    exact le_trans (ih _ _) (List.length_filter_le _ _)

theorem head_of_filterMap {α β : Type} (f : α → Option β) :
    ∀ (l : List α) (b : β) (bs : List β), l.filterMap f = b :: bs → ∃ x ∈ l, f x = some b := by
  intro l
  induction l with
  | nil => intro b bs h; simp at h
  | cons x xs ih =>
    intro b bs h
    rw [List.filterMap_cons] at h
    cases hx : f x with
    | none =>
      rw [hx] at h
      obtain ⟨y, hy, hfy⟩ := ih _ _ h
      exact ⟨y, List.mem_cons_of_mem _ hy, hfy⟩
    | some y =>
      rw [hx] at h
      injection h with h1 h2
      exact ⟨x, List.mem_cons_self x xs, h1 ▸ hx⟩

theorem posCnt_pos_exists {cs : List Clause} {v : Int} (h : 0 < posCnt cs v) :
    (∃ c ∈ cs, v ∈ c) ∧ 0 < v := by
  obtain ⟨x, hx, hxpos⟩ : ∃ x ∈ cs.map (fun c => c.countP (fun l => decide (0 < l ∧ |l| = v))), 0 < x := by
    by_contra hc
    push_neg at hc
    have : posCnt cs v = 0 := by
      unfold posCnt
      rw [List.sum_eq_zero_iff]
      intro x hx
      exact Nat.le_zero.mp (hc x hx)
    omega
  obtain ⟨c, hcmem, rfl⟩ := List.mem_map.mp hx
  rw [List.countP_pos_iff] at hxpos
  obtain ⟨l, hlmem, hl⟩ := hxpos
  rw [decide_eq_true_eq] at hl
  obtain ⟨hlpos, hlabs⟩ := hl
  have hlv : l = v := by rw [abs_of_pos hlpos] at hlabs; exact hlabs
  exact ⟨⟨c, hcmem, hlv ▸ hlmem⟩, hlv ▸ hlpos⟩

theorem negCnt_pos_exists {cs : List Clause} {v : Int} (h : 0 < negCnt cs v) :
    (∃ c ∈ cs, -v ∈ c) ∧ 0 ≤ v := by
  obtain ⟨x, hx, hxpos⟩ : ∃ x ∈ cs.map (fun c => c.countP (fun l => decide (¬ 0 < l ∧ |l| = v))), 0 < x := by
    by_contra hc
    have : negCnt cs v = 0 := by
      unfold negCnt
      rw [List.sum_eq_zero_iff]
      intro x hx
      by_contra hxne
      exact hc ⟨x, hx, Nat.pos_of_ne_zero hxne⟩
    omega
  obtain ⟨c, hcmem, rfl⟩ := List.mem_map.mp hx
  rw [List.countP_pos_iff] at hxpos
  obtain ⟨l, hlmem, hl⟩ := hxpos
  rw [decide_eq_true_eq] at hl
  obtain ⟨hlpos, hlabs⟩ := hl
  have hlv : l = -v := by rw [abs_of_nonpos (le_of_not_lt hlpos)] at hlabs; omega
  exact ⟨⟨c, hcmem, hlv ▸ hlmem⟩, by omega⟩

theorem detect_head_occ {cs : List Clause} {a : Assignment} {v : Int} {val : Bool}
    {rest : List (Int × Bool)} (hcons : detectPures cs a = (v, val) :: rest) :
    ∃ c ∈ cs, (if val then v else -v) ∈ c := by
  unfold detectPures at hcons
  obtain ⟨x, -, hfx⟩ := head_of_filterMap _ _ _ _ hcons
  simp only at hfx
  by_cases hp : 0 < posCnt cs x ∧ negCnt cs x = 0
  · rw [if_pos hp, Option.some_inj, Prod.mk.injEq] at hfx
    obtain ⟨rfl, rfl⟩ := hfx
    simpa using (posCnt_pos_exists hp.1).1
  · rw [if_neg hp] at hfx
    by_cases hn : 0 < negCnt cs x ∧ posCnt cs x = 0
    · rw [if_pos hn, Option.some_inj, Prod.mk.injEq] at hfx
      obtain ⟨rfl, rfl⟩ := hfx
      simpa using (negCnt_pos_exists hn.1).1
    · rw [if_neg hn] at hfx
      exact absurd hfx (by simp)

theorem applyPures_of_detect_length_lt (cs : List Clause) (a : Assignment)
    (h : detectPures cs a ≠ []) :
    (applyPures (detectPures cs a) cs a).1.length < cs.length := by
  obtain ⟨⟨v, val⟩, rest, hcons⟩ : ∃ p rest, detectPures cs a = p :: rest := by
    cases hd : detectPures cs a with
    | nil => exact absurd hd h
    | cons p rest => exact ⟨p, rest, rfl⟩
  have hocc := detect_head_occ hcons
  have h2 : (cs.filter (fun c => ¬ (if val then v else -v) ∈ c)).length < cs.length := by
    rw [List.length_filter_lt_length_iff_exists]
    obtain ⟨c, hcm, hlc⟩ := hocc
    exact ⟨c, hcm, by simpa using hlc⟩
  have h1 := applyPures_fst_length_le rest
    (cs.filter (fun c => ¬ (if val then v else -v) ∈ c)) (insertA a v val)
  rw [hcons]
  simp only [applyPures]
  omega

/-- The fuel of `pureElimLoop` is irrelevant as soon as it exceeds the
number of clauses: `_pure_literal_elim` computes the true fixpoint of
the Python loop, never hitting the fuel bound. -/
theorem pureElimLoop_fuel_irrelevant :
    ∀ (fuel fuel' : Nat) (cs : List Clause) (a : Assignment),
      cs.length < fuel → cs.length < fuel' →
      pureElimLoop fuel cs a = pureElimLoop fuel' cs a := by
  intro fuel
  induction fuel with
  | zero => intro fuel' cs a h; omega
  | succ f ih =>
    intro fuel' cs a h h'
    cases fuel' with
    | zero => omega
    | succ f' =>
      simp only [pureElimLoop]
      by_cases hd : detectPures cs a = []
      · simp [hd]
      · rw [if_neg hd, if_neg hd]
        have hlt := applyPures_of_detect_length_lt cs a hd
        exact ih f' _ _ (by omega) (by omega)

theorem lookup_insertA_of_some {a : Assignment} {v : Int} {b : Bool} (w : Int) (c : Bool)
    (h : List.lookup v a = some b) : List.lookup v (insertA a w c) = some b := by
  induction a with
  | nil => simp [List.lookup] at h
  | cons hd tl ih =>
    obtain ⟨k, bv⟩ := hd
    simp only [insertA, List.cons_append, List.lookup] at h ⊢
    cases hbeq : v == k with
    | true => rw [hbeq] at h; simpa [hbeq] using h
    | false => rw [hbeq] at h; simpa [hbeq] using ih h

theorem lookup_insertA_self {a : Assignment} {v : Int} (b : Bool)
    (h : List.lookup v a = none) : List.lookup v (insertA a v b) = some b := by
  induction a with
  | nil => simp [insertA, List.lookup]
  | cons hd tl ih =>
    obtain ⟨k, bv⟩ := hd
    simp only [List.lookup] at h
    simp only [insertA, List.cons_append, List.lookup]
    cases hbeq : v == k with
    | true => rw [hbeq] at h; simp at h
    | false => rw [hbeq] at h; simpa [hbeq] using ih h

theorem extendsA_refl (a : Assignment) : extendsA a a := fun _ _ h => h

theorem extendsA_trans {a b c : Assignment} (h1 : extendsA a b) (h2 : extendsA b c) :
    extendsA a c := fun v x h => h2 v x (h1 v x h)

theorem extendsA_insertA (a : Assignment) (v : Int) (b : Bool) :
    extendsA a (insertA a v b) := fun _ _ h => lookup_insertA_of_some v b h

theorem respects_of_extends {α : Valu} {a a' : Assignment}
    (hext : extendsA a a') (hr : respects α a') : respects α a :=
  fun v b h => hr v b (hext v b h)

theorem clauseEval_of_sub {α : Valu} {c c' : Clause} (hsub : ∀ l ∈ c', l ∈ c)
    (h : clauseEval α c' = true) : clauseEval α c = true := by
  rw [clauseEval, List.any_eq_true] at h ⊢
  obtain ⟨l, hl, he⟩ := h
  exact ⟨l, hsub l hl, he⟩

theorem litEval_of_lookup {α : Valu} {a : Assignment} {lit : Lit}
    (hl : List.lookup |lit| a = some (decide (0 < lit))) (hr : respects α a) :
    litEval α lit = true := by
  have hα := hr _ _ hl
  by_cases hpos : 0 < lit
  · rw [abs_of_pos hpos] at hα
    simp [litEval, hpos, hα]
  · rw [abs_of_nonpos (le_of_not_lt hpos)] at hα
    simp only [litEval, if_neg hpos]
    simp [hα, hpos]

theorem simplifyUnit_sound {lit : Lit} :
    ∀ {cs cs' : List Clause}, simplifyUnit lit cs = some cs' →
    ∀ (α : Valu), litEval α lit = true → formulaSat α cs' → formulaSat α cs := by
  intro cs
  induction cs with
  | nil =>
    intro cs' h α hlit hs c hc
    simp at hc
  | cons c cs ih =>
    intro cs' h α hlit hs
    simp only [simplifyUnit] at h
    by_cases h1 : lit ∈ c
    · rw [if_pos h1] at h
      intro c₀ hc₀
      rcases List.mem_cons.mp hc₀ with rfl | hmem
      · rw [clauseEval, List.any_eq_true]
        exact ⟨lit, h1, hlit⟩
      · exact ih h α hlit hs c₀ hmem
    · rw [if_neg h1] at h
      by_cases h2 : -lit ∈ c
      · rw [if_pos h2] at h
        by_cases h3 : (c.erase (-lit)).isEmpty
        · rw [if_pos h3] at h; exact absurd h (by simp)
        · rw [if_neg h3] at h
          obtain ⟨cs'', hsu, rfl⟩ := Option.map_eq_some'.mp h
          intro c₀ hc₀
          rcases List.mem_cons.mp hc₀ with rfl | hmem
          · exact clauseEval_of_sub (fun _ hl => List.erase_subset _ _ hl)
              (hs _ (List.mem_cons_self _ _))
          · exact ih hsu α hlit (fun d hd => hs d (List.mem_cons_of_mem _ hd)) c₀ hmem
      · rw [if_neg h2] at h
        obtain ⟨cs'', hsu, rfl⟩ := Option.map_eq_some'.mp h
        intro c₀ hc₀
        rcases List.mem_cons.mp hc₀ with rfl | hmem
        · exact hs _ (List.mem_cons_self _ _)
        · exact ih hsu α hlit (fun d hd => hs d (List.mem_cons_of_mem _ hd)) c₀ hmem

theorem processUnits_extends :
    ∀ (lits : List Lit) (cs : List Clause) (a : Assignment),
      extendsA a (processUnits lits cs a).2.1 := by
  intro lits
  induction lits with
  | nil => intro cs a; exact extendsA_refl a
  | cons lit rest ih =>
    intro cs a
    simp only [processUnits]
    split
    · split
      · exact ih cs a
      · exact extendsA_refl a
    · split
      · exact extendsA_insertA a _ _
      · exact extendsA_trans (extendsA_insertA a _ _) (ih _ _)

theorem processUnits_sound :
    ∀ (lits : List Lit) (cs : List Clause) (a : Assignment) (cs' : List Clause) (a' : Assignment),
      processUnits lits cs a = (cs', a', false) →
      extendsA a a' ∧ ∀ α : Valu, respects α a' → formulaSat α cs' → formulaSat α cs := by
  intro lits
  induction lits with
  | nil =>
    intro cs a cs' a' h
    cases h
    exact ⟨extendsA_refl a, fun α _ hs => hs⟩
  | cons lit rest ih =>
    intro cs a cs' a' h
    simp only [processUnits] at h
    split at h
    · split at h
      · exact ih cs a cs' a' h
      · simp at h
    · rename_i hl
      split at h
      · simp at h
      · rename_i cs1 hsu
        obtain ⟨hext, hsnd⟩ := ih cs1 _ cs' a' h
        have hA : List.lookup |lit| (insertA a |lit| (decide (0 < lit))) =
            some (decide (0 < lit)) := lookup_insertA_self _ hl
        refine ⟨extendsA_trans (extendsA_insertA a _ _) hext, fun α hr hs => ?_⟩
        exact simplifyUnit_sound hsu α
          (litEval_of_lookup (hext _ _ hA) hr) (hsnd α hr hs)

theorem up_extends :
    ∀ (fuel : Nat) (cs : List Clause) (a : Assignment) (cs' : List Clause) (a' : Assignment)
      (b : Bool), _unit_propagate fuel cs a = some (cs', a', b) → extendsA a a' := by
  intro fuel
  induction fuel with
  | zero => intro cs a cs' a' b h; simp [_unit_propagate] at h
  | succ f ih =>
    intro cs a cs' a' b h
    simp only [_unit_propagate] at h
    split at h
    · cases h
      exact extendsA_refl a
    · split at h
      · rename_i cs1 a1 hpu
        cases h
        have := processUnits_extends (unitLits cs) cs a
        rw [hpu] at this
        exact this
      · rename_i cs1 a1 hpu
        have hpe := processUnits_extends (unitLits cs) cs a
        rw [hpu] at hpe
        exact extendsA_trans hpe (ih cs1 a1 cs' a' b h)

theorem up_sound :
    ∀ (fuel : Nat) (cs : List Clause) (a : Assignment) (cs' : List Clause) (a' : Assignment),
      _unit_propagate fuel cs a = some (cs', a', false) →
      extendsA a a' ∧ ∀ α : Valu, respects α a' → formulaSat α cs' → formulaSat α cs := by
  intro fuel
  induction fuel with
  | zero => intro cs a cs' a' h; simp [_unit_propagate] at h
  | succ f ih =>
    intro cs a cs' a' h
    simp only [_unit_propagate] at h
    split at h
    · cases h
      exact ⟨extendsA_refl a, fun α _ hs => hs⟩
    · split at h
      · cases h
      · rename_i cs1 a1 hpu
        obtain ⟨hext1, hsnd1⟩ := processUnits_sound (unitLits cs) cs a cs1 a1 hpu
        obtain ⟨hext2, hsnd2⟩ := ih cs1 a1 cs' a' h
        refine ⟨extendsA_trans hext1 hext2, fun α hr hs => ?_⟩
        exact hsnd1 α (respects_of_extends hext2 hr) (hsnd2 α hr hs)

theorem lookup_insertA_ne {a : Assignment} {v : Int} (b : Bool) {w : Int} (h : w ≠ v) :
    List.lookup w (insertA a v b) = List.lookup w a := by
  induction a with
  | nil =>
    have hbeq : (w == v) = false := beq_eq_false_iff_ne.mpr h
    simp [insertA, List.lookup, hbeq]
  | cons hd tl ih =>
    obtain ⟨k, bv⟩ := hd
    simp only [insertA, List.cons_append, List.lookup] at ih ⊢
    cases hbeq : w == k with
    | true => simp [hbeq]
    | false => simpa [hbeq] using ih

theorem applyPures_mem :
    ∀ (ps : List (Int × Bool)) (cs : List Clause) (a : Assignment),
      ∀ c ∈ (applyPures ps cs a).1, c ∈ cs := by
  intro ps
  induction ps with
  | nil => intro cs a c hc; simpa [applyPures] using hc
  | cons p rest ih =>
    intro cs a c hc
    obtain ⟨v, val⟩ := p
    simp only [applyPures] at hc
    exact (List.mem_filter.mp (ih _ _ c hc)).1

theorem litEval_pure {α : Valu} {v : Int} {val : Bool}
    (hpos : val = true → 0 < v) (hnn : val = false → 0 ≤ v)
    (hαv : α v = val) : litEval α (if val then v else -v) = true := by
  cases val with
  | true =>
    have hvp := hpos rfl
    simp [litEval, hvp, hαv]
  | false =>
    have hvp := hnn rfl
    simp only [Bool.false_eq_true, if_false]
    by_cases hv0 : 0 < v
    · have hneg : ¬ 0 < -v := by omega
      rw [litEval, if_neg hneg]
      simp [hαv]
    · have hveq : v = 0 := le_antisymm (le_of_not_lt hv0) hvp
      subst hveq
      simp [litEval, hαv]

theorem applyPures_sound :
    ∀ (ps : List (Int × Bool)) (cs : List Clause) (a : Assignment),
      (ps.map Prod.fst).Nodup →
      (∀ p ∈ ps, List.lookup p.1 a = none) →
      (∀ p ∈ ps, (p.2 = true → 0 < p.1) ∧ (p.2 = false → 0 ≤ p.1)) →
      extendsA a (applyPures ps cs a).2 ∧
      ∀ α : Valu, respects α (applyPures ps cs a).2 →
        formulaSat α (applyPures ps cs a).1 → formulaSat α cs := by
  intro ps
  induction ps with
  | nil => intro cs a _ _ _; exact ⟨extendsA_refl a, fun α _ hs => hs⟩
  | cons p rest ih =>
    intro cs a hnd hun hpol
    obtain ⟨v, val⟩ := p
    simp only [applyPures]
    have hvun : List.lookup v a = none := hun (v, val) (List.mem_cons_self _ _)
    rw [List.map_cons] at hnd
    have hnd' := List.nodup_cons.mp hnd
    have hrest_un : ∀ q ∈ rest, List.lookup q.1 (insertA a v val) = none := by
      intro q hq
      have hneq : q.1 ≠ v := by
        intro he
        apply hnd'.1
        rw [← he]
        exact List.mem_map.mpr ⟨q, hq, rfl⟩
      rw [lookup_insertA_ne _ hneq]
      exact hun q (List.mem_cons_of_mem _ hq)
    have hrest_pol : ∀ q ∈ rest, (q.2 = true → 0 < q.1) ∧ (q.2 = false → 0 ≤ q.1) :=
      fun q hq => hpol q (List.mem_cons_of_mem _ hq)
    obtain ⟨hext, hsnd⟩ := ih (cs.filter (fun c => ¬ (if val then v else -v) ∈ c))
      (insertA a v val) hnd'.2 hrest_un hrest_pol
    refine ⟨extendsA_trans (extendsA_insertA a v val) hext, fun α hr hs => ?_⟩
    have hsat_filter : formulaSat α (cs.filter (fun c => ¬ (if val then v else -v) ∈ c)) :=
      hsnd α hr hs
    intro c hc
    by_cases hlit : (if val then v else -v) ∈ c
    · have hαv : α v = val := hr v val (hext _ _ (lookup_insertA_self val hvun))
      rw [clauseEval, List.any_eq_true]
      exact ⟨(if val then v else -v), hlit,
        litEval_pure (fun h => (hpol (v, val) (List.mem_cons_self _ _)).1 (by simp [h]))
          (fun h => (hpol (v, val) (List.mem_cons_self _ _)).2 (by simp [h])) hαv⟩
    · exact hsat_filter c (List.mem_filter.mpr ⟨hc, by simpa using hlit⟩)

theorem filterMap_keys_sublist {α β : Type} (f : α → Option (α × β))
    (hf : ∀ v p, f v = some p → p.1 = v) :
    ∀ l : List α, ((l.filterMap f).map Prod.fst).Sublist l := by
  intro l
  induction l with
  | nil => simp
  | cons x xs ih =>
    rw [List.filterMap_cons]
    cases hx : f x with
    | none => exact ih.cons x
    | some p =>
      rw [List.map_cons, hf x p hx]
      exact ih.cons₂ x

theorem detectPures_keys_nodup (cs : List Clause) (a : Assignment) :
    ((detectPures cs a).map Prod.fst).Nodup := by
  have hf : ∀ (v : Int) (p : Int × Bool),
      (fun v =>
        let p := posCnt cs v
        let n := negCnt cs v
        if 0 < p ∧ n = 0 then some (v, true)
        else if 0 < n ∧ p = 0 then some (v, false)
        else none) v = some p → p.1 = v := by
    intro v p h
    simp only at h
    split_ifs at h <;> cases h <;> rfl
  exact (filterMap_keys_sublist _ hf (candVars cs a)).nodup (List.nodup_dedup _)

theorem detectPures_mem_spec {cs : List Clause} {a : Assignment} {p : Int × Bool}
    (hp : p ∈ detectPures cs a) :
    List.lookup p.1 a = none ∧
    (p.2 = true → 0 < posCnt cs p.1 ∧ negCnt cs p.1 = 0) ∧
    (p.2 = false → 0 < negCnt cs p.1 ∧ posCnt cs p.1 = 0) := by
  rw [detectPures, List.mem_filterMap] at hp
  obtain ⟨v, hv, hfv⟩ := hp
  have hun : List.lookup v a = none := by
    rw [candVars, List.mem_dedup, List.mem_filter] at hv
    exact Option.isNone_iff_eq_none.mp (by simpa using hv.2)
  simp only at hfv
  by_cases hc1 : 0 < posCnt cs v ∧ negCnt cs v = 0
  · rw [if_pos hc1] at hfv
    cases hfv
    exact ⟨hun, fun _ => hc1, fun h => by simp at h⟩
  · rw [if_neg hc1] at hfv
    by_cases hc2 : 0 < negCnt cs v ∧ posCnt cs v = 0
    · rw [if_pos hc2] at hfv
      cases hfv
      exact ⟨hun, fun h => by simp at h, fun _ => hc2⟩
    · rw [if_neg hc2] at hfv
      cases hfv

theorem pureElimLoop_mem :
    ∀ (fuel : Nat) (cs : List Clause) (a : Assignment),
      ∀ c ∈ (pureElimLoop fuel cs a).1, c ∈ cs := by
  intro fuel
  induction fuel with
  | zero => intro cs a c hc; simpa [pureElimLoop] using hc
  | succ f ih =>
    intro cs a c hc
    simp only [pureElimLoop] at hc
    split at hc
    · simpa using hc
    · exact applyPures_mem _ cs a c (ih _ _ c hc)

theorem pureElimLoop_sound :
    ∀ (fuel : Nat) (cs : List Clause) (a : Assignment),
      extendsA a (pureElimLoop fuel cs a).2 ∧
      ∀ α : Valu, respects α (pureElimLoop fuel cs a).2 →
        formulaSat α (pureElimLoop fuel cs a).1 → formulaSat α cs := by
  intro fuel
  induction fuel with
  | zero => intro cs a; exact ⟨extendsA_refl a, fun α _ hs => hs⟩
  | succ f ih =>
    intro cs a
    simp only [pureElimLoop]
    split
    · exact ⟨extendsA_refl a, fun α _ hs => hs⟩
    · have hnd := detectPures_keys_nodup cs a
      have hun : ∀ p ∈ detectPures cs a, List.lookup p.1 a = none :=
        fun p hp => (detectPures_mem_spec hp).1
      have hpol : ∀ p ∈ detectPures cs a, (p.2 = true → 0 < p.1) ∧ (p.2 = false → 0 ≤ p.1) :=
        fun p hp =>
          ⟨fun h => (posCnt_pos_exists ((detectPures_mem_spec hp).2.1 h).1).2,
           fun h => (negCnt_pos_exists ((detectPures_mem_spec hp).2.2 h).1).2⟩
      obtain ⟨hext1, hsnd1⟩ := applyPures_sound (detectPures cs a) cs a hnd hun hpol
      obtain ⟨hext2, hsnd2⟩ := ih (applyPures (detectPures cs a) cs a).1
        (applyPures (detectPures cs a) cs a).2
      exact ⟨extendsA_trans hext1 hext2,
        fun α hr hs => hsnd1 α (respects_of_extends hext2 hr) (hsnd2 α hr hs)⟩

theorem pure_elim_sound (cs : List Clause) (a : Assignment) :
    extendsA a (_pure_literal_elim cs a).2 ∧
    ∀ α : Valu, respects α (_pure_literal_elim cs a).2 →
      formulaSat α (_pure_literal_elim cs a).1 → formulaSat α cs :=
  pureElimLoop_sound _ cs a

theorem pure_elim_mem (cs : List Clause) (a : Assignment) :
    ∀ c ∈ (_pure_literal_elim cs a).1, c ∈ cs :=
  pureElimLoop_mem _ cs a

theorem simplify_after_sound {α : Valu} {cs : List Clause} {lit : Lit}
    (hlit : litEval α lit = true)
    (hs : formulaSat α (_simplify_after_assignment cs lit)) : formulaSat α cs := by
  intro c hc
  by_cases h1 : lit ∈ c
  · rw [clauseEval, List.any_eq_true]
    exact ⟨lit, h1, hlit⟩
  · by_cases h2 : -lit ∈ c
    · have hmem : c.erase (-lit) ∈ _simplify_after_assignment cs lit := by
        rw [_simplify_after_assignment, List.mem_filterMap]
        exact ⟨c, hc, by rw [if_neg h1, if_pos h2]⟩
      exact clauseEval_of_sub (fun _ hl => List.erase_subset _ _ hl) (hs _ hmem)
    · have hmem : c ∈ _simplify_after_assignment cs lit := by
        rw [_simplify_after_assignment, List.mem_filterMap]
        exact ⟨c, hc, by rw [if_neg h1, if_neg h2]⟩
      exact hs _ hmem

theorem cbvGo_some_spec (cs : List Clause) (a : Assignment) :
    ∀ (vs : List Int) (st : Option Int × Int × Bool) (v : Int),
      (cbvGo cs a vs st).1 = some v →
      st.1 = some v ∨ (v ∈ vs ∧ List.lookup v a = none) := by
  intro vs
  induction vs with
  | nil => intro st v h; exact Or.inl h
  | cons w ws ih =>
    intro st v h
    simp only [cbvGo] at h
    split at h
    · rcases ih st v h with h' | h'
      · exact Or.inl h'
      · exact Or.inr ⟨List.mem_cons_of_mem _ h'.1, h'.2⟩
    · rename_i hw
      split at h
      · rcases ih _ v h with h' | h'
        · have hwv : w = v := by simpa using h'
          refine Or.inr ⟨hwv ▸ List.mem_cons_self _ _, hwv ▸ ?_⟩
          exact Option.not_isSome_iff_eq_none.mp hw
        · exact Or.inr ⟨List.mem_cons_of_mem _ h'.1, h'.2⟩
      · rcases ih st v h with h' | h'
        · exact Or.inl h'
        · exact Or.inr ⟨List.mem_cons_of_mem _ h'.1, h'.2⟩

theorem choose_branch_var_some {cs : List Clause} {a : Assignment} {numVars : Nat}
    {v : Int} {pref : Bool} (h : _choose_branch_var cs a numVars = (some v, pref)) :
    1 ≤ v ∧ v ≤ (numVars : Int) ∧ List.lookup v a = none := by
  simp only [_choose_branch_var] at h
  have h1 : (cbvGo cs a (varRange numVars) (none, -1, true)).1 = some v := by
    have := congrArg Prod.fst h
    simpa using this
  rcases cbvGo_some_spec cs a _ _ v h1 with h' | h'
  · simp at h'
  · obtain ⟨hmem, hun⟩ := h'
    rw [varRange] at hmem
    rcases List.mem_map.mp hmem with ⟨i, hi, rfl⟩
    rw [List.mem_range] at hi
    simp only [Int.ofNat_eq_natCast] at hun ⊢
    exact ⟨by omega, by omega, hun⟩

theorem litEval_branch {α : Valu} {v : Int} (tv : Bool) (hv : 1 ≤ v)
    (hαv : α v = tv) : litEval α (if tv then v else -v) = true :=
  litEval_pure (fun _ => by omega) (fun _ => by omega) hαv

theorem dpll_sound :
    ∀ (fuel : Nat) (cs : List Clause) (a : Assignment) (numVars : Nat) (fa : Assignment),
      _dpll fuel cs a numVars = some (true, fa) →
      extendsA a fa ∧ ∀ α : Valu, respects α fa → formulaSat α cs := by
  intro fuel
  induction fuel with
  | zero => intro cs a n fa h; simp [_dpll] at h
  | succ f ih =>
    intro cs a n fa h
    simp only [_dpll] at h
    split at h
    · simp at h
    · simp at h
    · rename_i cs1 a1 hup
      obtain ⟨hext1, hsnd1⟩ := up_sound (upFuel cs) cs a cs1 a1 hup
      obtain ⟨hext2, hsnd2⟩ := pure_elim_sound cs1 a1
      by_cases hemp : (_pure_literal_elim cs1 a1).1.isEmpty
      · rw [if_pos hemp] at h
        cases h
        refine ⟨extendsA_trans hext1 hext2, fun α hr => ?_⟩
        have hvac : formulaSat α (_pure_literal_elim cs1 a1).1 := by
          intro c hc
          rw [List.isEmpty_iff.mp hemp] at hc
          simp at hc
        exact hsnd1 α (respects_of_extends hext2 hr) (hsnd2 α hr hvac)
      · rw [if_neg hemp] at h
        by_cases hec : _contains_empty_clause (_pure_literal_elim cs1 a1).1 = true
        · rw [if_pos hec] at h
          simp at h
        · rw [if_neg hec] at h
          split at h
          · simp at h
          · rename_i v pref hcbv
            obtain ⟨hv1, hvn, hvun⟩ := choose_branch_var_some hcbv
            split at h
            · simp at h
            · rename_i fa1 heq1
              cases h
              by_cases hce3 : _contains_empty_clause
                  (_simplify_after_assignment (_pure_literal_elim cs1 a1).1
                    (if pref then v else -v)) = true
              · rw [if_pos hce3] at heq1
                simp at heq1
              · rw [if_neg hce3] at heq1
                obtain ⟨hext3, hsnd3⟩ := ih _ _ n _ heq1
                have hlook : List.lookup v (insertA (_pure_literal_elim cs1 a1).2 v pref) =
                    some pref := lookup_insertA_self pref hvun
                refine ⟨extendsA_trans hext1 (extendsA_trans hext2
                  (extendsA_trans (extendsA_insertA _ v pref) hext3)), fun α hr => ?_⟩
                have hαv : α v = pref := hr v pref (hext3 _ _ hlook)
                have hsat3 := hsnd3 α hr
                have hsatpe : formulaSat α (_pure_literal_elim cs1 a1).1 :=
                  simplify_after_sound (litEval_branch pref hv1 hαv) hsat3
                exact hsnd1 α
                  (respects_of_extends hext2
                    (respects_of_extends (extendsA_trans (extendsA_insertA _ v pref) hext3) hr))
                  (hsnd2 α (respects_of_extends (extendsA_trans (extendsA_insertA _ v pref) hext3) hr) hsatpe)
            · rename_i x heq1
              split at h
              · simp at h
              · rename_i fa2 heq2
                cases h
                by_cases hce4 : _contains_empty_clause
                    (_simplify_after_assignment (_pure_literal_elim cs1 a1).1
                      (if pref then -v else v)) = true
                · rw [if_pos hce4] at heq2
                  simp at heq2
                · rw [if_neg hce4] at heq2
                  obtain ⟨hext3, hsnd3⟩ := ih _ _ n _ heq2
                  have hlook : List.lookup v (insertA (_pure_literal_elim cs1 a1).2 v (!pref)) =
                      some (!pref) := lookup_insertA_self (!pref) hvun
                  have hlit2 : (if pref then -v else v) = (if !pref then v else -v) := by
                    cases pref <;> rfl
                  refine ⟨extendsA_trans hext1 (extendsA_trans hext2
                    (extendsA_trans (extendsA_insertA _ v (!pref)) hext3)), fun α hr => ?_⟩
                  have hαv : α v = !pref := hr v (!pref) (hext3 _ _ hlook)
                  have hsat3 := hsnd3 α hr
                  rw [hlit2] at hsat3
                  have hsatpe : formulaSat α (_pure_literal_elim cs1 a1).1 :=
                    simplify_after_sound (litEval_branch (!pref) hv1 hαv) hsat3
                  exact hsnd1 α
                    (respects_of_extends hext2
                      (respects_of_extends (extendsA_trans (extendsA_insertA _ v (!pref)) hext3) hr))
                    (hsnd2 α (respects_of_extends (extendsA_trans (extendsA_insertA _ v (!pref)) hext3) hr) hsatpe)
              · simp at h

theorem getD_respects (fa : Assignment) :
    respects (fun v => (List.lookup v fa).getD false) fa := by
  intro v b hb
  show (List.lookup v fa).getD false = b
  rw [hb]
  rfl

theorem lit_mem_build_model {fa : Assignment} {numVars : Nat} {l : Int}
    (hl1 : 1 ≤ |l|) (hl2 : |l| ≤ (numVars : Int))
    (he : litEval (fun v => (List.lookup v fa).getD false) l = true) :
    l ∈ _build_model fa numVars := by
  rw [_build_model, List.mem_map]
  by_cases hpos : 0 < l
  · rw [abs_of_pos hpos] at hl1 hl2
    refine ⟨(l - 1).toNat, List.mem_range.mpr (by omega), ?_⟩
    have hv : Int.ofNat ((l - 1).toNat) + 1 = l := by
      simp only [Int.ofNat_eq_natCast]
      omega
    rw [litEval, if_pos hpos] at he
    show (if (List.lookup (Int.ofNat ((l - 1).toNat) + 1) fa).getD false then
      Int.ofNat ((l - 1).toNat) + 1 else -(Int.ofNat ((l - 1).toNat) + 1)) = l
    rw [hv, if_pos he]
  · rw [abs_of_nonpos (le_of_not_lt hpos)] at hl1 hl2
    refine ⟨(-l - 1).toNat, List.mem_range.mpr (by omega), ?_⟩
    have hv : Int.ofNat ((-l - 1).toNat) + 1 = -l := by
      simp only [Int.ofNat_eq_natCast]
      omega
    rw [litEval, if_neg hpos, Bool.not_eq_true'] at he
    show (if (List.lookup (Int.ofNat ((-l - 1).toNat) + 1) fa).getD false then
      Int.ofNat ((-l - 1).toNat) + 1 else -(Int.ofNat ((-l - 1).toNat) + 1)) = l
    rw [hv, if_neg (by rw [he]; simp)]
    omega

/-- **C1** (soundness of the solver).  For every input `(clauses, num_vars)`
whose literals name variables in `[1, num_vars]`, if the working
`solve_cnf` implementation returns `("SAT", model)`, then every clause of
the input contains at least one literal that evaluates to true under
`model` (a literal is true under the DIMACS-style model exactly when it
occurs in it). -/
theorem solve_cnf_sound (clauses : List (List Int)) (numVars : Nat) (model : List Int)
    (hrange : ∀ c ∈ clauses, ∀ l ∈ c, 1 ≤ |l| ∧ |l| ≤ (numVars : Int))
    (h : solve_cnf clauses numVars = some ("SAT", some model)) :
    ∀ c ∈ clauses, ∃ l ∈ c, l ∈ model := by
  rw [solve_cnf] at h
  split at h
  · simp at h
  · rename_i fa heq
    injection h with h1
    injection h1 with h2 h3
    injection h3 with h4
    subst h4
    obtain ⟨-, hsnd⟩ := dpll_sound _ _ _ _ _ heq
    have hsat := hsnd (fun v => (List.lookup v fa).getD false) (getD_respects fa)
    intro c hc
    have hdc : c.dedup ∈ _clauses_to_sets clauses := by
      rw [_clauses_to_sets, List.mem_map]
      exact ⟨c, hc, rfl⟩
    have hce := hsat _ hdc
    rw [clauseEval, List.any_eq_true] at hce
    obtain ⟨l, hl, he⟩ := hce
    rw [List.mem_dedup] at hl
    obtain ⟨ha1, ha2⟩ := hrange c hc l hl
    exact ⟨l, hl, lit_mem_build_model ha1 ha2 he⟩
  · rename_i x heq
    injection h with h1
    injection h1 with h2 h3
    exact absurd h2 (by decide)

/-- Witness for C1 at the concrete satisfiable input of Scenario 3. -/
theorem solve_cnf_sound_witness :
    ([[1, 2], [-1, 2], [1, -2]] : List (List Int)).all
      (fun c => c.any (fun l => decide (l ∈ ([1, 2] : List Int)))) = true := by
  have h := solve_cnf_sound [[1, 2], [-1, 2], [1, -2]] 2 [1, 2] (by decide) (by decide)
  rw [List.all_eq_true]
  intro c hc
  rw [List.any_eq_true]
  obtain ⟨l, hl, hm⟩ := h c hc
  exact ⟨l, hl, by simpa using hm⟩

/-- **C3** (shadowing stub).  The module-level name `solve_cnf` is bound
to the second, stub definition, which shadows the working implementation
defined immediately above it; calling the public `solve_cnf` raises
`NotImplementedError` for every input and never returns a
`(status, model)` pair. -/
theorem solve_cnf_module_raises (clauses : List (List Int)) (numVars : Nat) :
    solve_cnf_module clauses numVars = PyResult.raised "NotImplementedError" ∧
    ∀ r : String × Option (List Int), solve_cnf_module clauses numVars ≠ PyResult.ok r := by
  refine ⟨rfl, fun r h => ?_⟩
  simp [solve_cnf_module, solve_cnf_stub] at h

/-- Witness for C3 at a concrete input. -/
theorem solve_cnf_module_raises_witness :
    solve_cnf_module [[1]] 1 = PyResult.raised "NotImplementedError" ∧
    decide (solve_cnf_module [[1]] 1 = PyResult.ok ("SAT", some [1])) = false :=
  ⟨(solve_cnf_module_raises [[1]] 1).1,
    decide_eq_false ((solve_cnf_module_raises [[1]] 1).2 ("SAT", some [1]))⟩

/-- **C5** (Scenario 3).  On `clauses = [[1, 2], [-1, 2], [1, -2]]` with
`num_vars = 2`, the working `solve_cnf` implementation returns exactly
`("SAT", [1, 2])`. -/
theorem solve_cnf_scenario3 :
    solve_cnf [[1, 2], [-1, 2], [1, -2]] 2 = some ("SAT", some [1, 2]) := by decide

/-- **C4** (totality and order of the model).  Whenever the working
`solve_cnf` returns `("SAT", model)`, `model` has exactly `num_vars`
entries, and its `i`-th entry (for `i` in `1..num_vars`, increasing) is
`+i` if variable `i` is assigned true in the final assignment and `-i`
otherwise (never-assigned variables defaulting to false): one signed
entry per variable, no duplicates, no gaps. -/
theorem solve_cnf_model_total (clauses : List (List Int)) (numVars : Nat) (model : List Int)
    (h : solve_cnf clauses numVars = some ("SAT", some model)) :
    model.length = numVars ∧
    (∀ i : Nat, 1 ≤ i → i ≤ numVars →
      model.get? (i - 1) = some (Int.ofNat i) ∨ model.get? (i - 1) = some (-(Int.ofNat i))) ∧
    ∃ fa : Assignment,
      _dpll (numVars + 1) (_clauses_to_sets clauses) [] numVars = some (true, fa) ∧
      model = _build_model fa numVars ∧
      ∀ i : Nat, 1 ≤ i → i ≤ numVars →
        model.get? (i - 1) =
          some (if (List.lookup (Int.ofNat i) fa).getD false then Int.ofNat i
                else -(Int.ofNat i)) := by
  rw [solve_cnf] at h
  split at h
  · simp at h
  · rename_i fa heq
    injection h with h1
    injection h1 with h2 h3
    injection h3 with h4
    subst h4
    have hget : ∀ i : Nat, 1 ≤ i → i ≤ numVars →
        (_build_model fa numVars).get? (i - 1) =
          some (if (List.lookup (Int.ofNat i) fa).getD false then Int.ofNat i
                else -(Int.ofNat i)) := by
      intro i hi1 hi2
      rw [_build_model, List.get?_map, List.get?_range (by omega)]
      have hv : Int.ofNat (i - 1) + 1 = Int.ofNat i := by
        simp only [Int.ofNat_eq_natCast]
        omega
      simp only [Option.map_some', hv]
    refine ⟨by rw [_build_model, List.length_map, List.length_range], ?_, fa, heq, rfl, hget⟩
    intro i hi1 hi2
    rw [hget i hi1 hi2]
    by_cases hb : (List.lookup (Int.ofNat i) fa).getD false
    · exact Or.inl (by rw [if_pos hb])
    · exact Or.inr (by rw [if_neg hb])
  · rename_i x heq
    injection h with h1
    injection h1 with h2 h3
    exact absurd h2 (by decide)

/-- Witness for C4 at a concrete input with an unassigned variable
(variable 2 defaults to false in the model). -/
theorem solve_cnf_model_total_witness :
    ([1, -2] : List Int).length = 2 ∧
    (([1, -2] : List Int).get? 0 = some (Int.ofNat 1) ∨
      ([1, -2] : List Int).get? 0 = some (-(Int.ofNat 1))) ∧
    (([1, -2] : List Int).get? 1 = some (Int.ofNat 2) ∨
      ([1, -2] : List Int).get? 1 = some (-(Int.ofNat 2))) := by
  have h := solve_cnf_model_total [[1]] 2 [1, -2] (by decide)
  exact ⟨h.1, h.2.1 1 (by omega) (by omega), h.2.1 2 (by omega) (by omega)⟩

theorem up_false_no_units :
    ∀ (fuel : Nat) (cs : List Clause) (a : Assignment) (cs' : List Clause) (a' : Assignment),
      _unit_propagate fuel cs a = some (cs', a', false) → unitLits cs' = [] := by
  intro fuel
  induction fuel with
  | zero => intro cs a cs' a' h; simp [_unit_propagate] at h
  | succ f ih =>
    intro cs a cs' a' h
    simp only [_unit_propagate] at h
    split at h
    · rename_i hu
      cases h
      exact List.isEmpty_iff.mp hu
    · split at h
      · cases h
      · exact ih _ _ _ _ h

/-- **C7** (pure-literal elimination cannot create a contradiction).
Every clause returned by `_pure_literal_elim` is one of the input
clauses — the pass only drops whole satisfied clauses and never removes
a literal from a surviving clause — so if no input clause is empty then
no returned clause is empty.  The pass reports no conflict: its return
type `(clauses, assignment)` carries no conflict flag at all. -/
theorem pure_literal_elim_safe (cs : List Clause) (a : Assignment) :
    (∀ c ∈ (_pure_literal_elim cs a).1, c ∈ cs) ∧
    ((∀ c ∈ cs, c ≠ []) → ∀ c ∈ (_pure_literal_elim cs a).1, c ≠ []) :=
  ⟨pure_elim_mem cs a, fun hne c hc => hne c (pure_elim_mem cs a c hc)⟩

/-- Witness for C7 at a concrete input with no pure variable, where the
clause `[1, -2]` survives the pass untouched. -/
theorem pure_literal_elim_safe_witness :
    ([1, -2] : Clause) ∈ [[1, -2], [-1, 2]] ∧
    ([1, -2] : Clause).isEmpty = false := by
  have h := pure_literal_elim_safe [[1, -2], [-1, 2]] []
  have hmem : ([1, -2] : Clause) ∈ (_pure_literal_elim [[1, -2], [-1, 2]] []).1 := by decide
  refine ⟨h.1 _ hmem, ?_⟩
  have hne := h.2 (by decide) _ hmem
  cases he : ([1, -2] : Clause).isEmpty
  · rfl
  · exact absurd (List.isEmpty_iff.mp he) hne

/-- **C8** (idempotence of unit propagation).  Whenever `_unit_propagate`
returns `(clauses', assignment', conflict = false)`, running it again on
`(clauses', assignment')` returns the very same clause set and
assignment, still without conflict: a fixpointed state (one with no unit
clauses) is left unchanged. -/
theorem unit_propagate_idempotent (fuel : Nat) (cs cs' : List Clause) (a a' : Assignment)
    (h : _unit_propagate fuel cs a = some (cs', a', false)) :
    _unit_propagate fuel cs' a' = some (cs', a', false) := by
  have hnu := up_false_no_units fuel cs a cs' a' h
  cases fuel with
  | zero => simp [_unit_propagate] at h
  | succ f =>
    simp only [_unit_propagate]
    rw [if_pos (by rw [hnu]; rfl)]

/-- Witness for C8: propagating `[[1, 2], [1]]` from the empty assignment
reaches the fixpoint `([], {1 ↦ true})`, and a second run is a no-op. -/
theorem unit_propagate_idempotent_witness :
    _unit_propagate 2 [] [(1, true)] = some ([], [(1, true)], false) :=
  unit_propagate_idempotent 2 [[1, 2], [1]] [] [] [(1, true)] (by decide)

/-- **C9** (monotonicity of the assignment).  Every operation only
extends the partial assignment and never reassigns a variable within a
branch: the assignment returned by `_unit_propagate` (conflict or not)
and by `_pure_literal_elim` agrees with the incoming assignment on every
variable already assigned in it, and the assignment passed to each
recursive `_dpll` call — `insert` of the branch variable into the
post-simplification assignment, for either polarity `tv` — is a
consistent extension of the parent call's assignment. -/
theorem assignment_monotone :
    (∀ (fuel : Nat) (cs : List Clause) (a : Assignment) (r : List Clause × Assignment × Bool),
        _unit_propagate fuel cs a = some r → extendsA a r.2.1) ∧
    (∀ (cs : List Clause) (a : Assignment), extendsA a (_pure_literal_elim cs a).2) ∧
    (∀ (fuel : Nat) (cs cs1 : List Clause) (a a1 : Assignment) (numVars : Nat)
        (v : Int) (pref tv : Bool),
        _unit_propagate fuel cs a = some (cs1, a1, false) →
        _choose_branch_var (_pure_literal_elim cs1 a1).1 (_pure_literal_elim cs1 a1).2 numVars
          = (some v, pref) →
        extendsA a (insertA (_pure_literal_elim cs1 a1).2 v tv) ∧
        List.lookup v (insertA (_pure_literal_elim cs1 a1).2 v tv) = some tv) := by
  refine ⟨?_, ?_, ?_⟩
  · intro fuel cs a r h
    exact up_extends fuel cs a r.1 r.2.1 r.2.2 (by rw [h])
  · intro cs a
    exact (pure_elim_sound cs a).1
  · intro fuel cs cs1 a a1 numVars v pref tv hup hcbv
    have hext1 := up_extends fuel cs a cs1 a1 false hup
    have hext2 := (pure_elim_sound cs1 a1).1
    obtain ⟨-, -, hun⟩ := choose_branch_var_some hcbv
    exact ⟨extendsA_trans hext1 (extendsA_trans hext2 (extendsA_insertA _ v tv)),
      lookup_insertA_self tv hun⟩

/-- Witness for C9: all three parts at concrete inputs — the run of
`_unit_propagate` on `[[1], [1, 2]]` extends `{3 ↦ false}`, pure
elimination extends it further, and the branch assignment extends the
parent's. -/
theorem assignment_monotone_witness :
    extendsA [(3, false)] ([(3, false), (1, true)] : Assignment) ∧
    extendsA [] (_pure_literal_elim [[1, -2], [2, 3]] []).2 ∧
    (extendsA []
        (insertA (_pure_literal_elim [[1, 2], [-1, 2], [1, -2], [-1, -2]] []).2 1 true) ∧
      List.lookup 1
          (insertA (_pure_literal_elim [[1, 2], [-1, 2], [1, -2], [-1, -2]] []).2 1 true) =
        some true) := by
  refine ⟨?_, ?_, ?_⟩
  · have h := assignment_monotone.1 2 [[1], [1, 2]] [(3, false)]
      ([], [(3, false), (1, true)], false) (by decide)
    exact h
  · exact assignment_monotone.2.1 [[1, -2], [2, 3]] []
  · exact assignment_monotone.2.2 1 [[1, 2], [-1, 2], [1, -2], [-1, -2]]
      [[1, 2], [-1, 2], [1, -2], [-1, -2]] [] [] 2 1 true true (by decide) (by decide)

/-- Counterexample to **C6** as stated.  On the nonempty clause set
`[[2]]` with assignment `{2 ↦ true}` and `num_vars = 2`, no unassigned
variable occurs in the clause set, yet `_choose_branch_var` does not
signal "no candidate": it returns variable `1` (the first unassigned
variable, with score `0`, which beats the initial best score `-1`),
a variable with no occurrence at all. -/
theorem choose_branch_var_claim_cex :
    ([[2]] : List Clause) ≠ [] ∧
    (∀ l ∈ ([[2]] : List Clause).flatten, (List.lookup |l| [((2 : Int), true)]).isSome) ∧
    _choose_branch_var [[2]] [((2 : Int), true)] 2 = (some 1, true) := by decide

theorem cbvGo_some_stays (cs : List Clause) (a : Assignment) :
    ∀ (vs : List Int) (st : Option Int × Int × Bool) (u : Int),
      st.1 = some u → ∃ u', (cbvGo cs a vs st).1 = some u' := by
  intro vs
  induction vs with
  | nil => intro st u h; exact ⟨u, h⟩
  | cons w ws ih =>
    intro st u h
    simp only [cbvGo]
    split
    · exact ih st u h
    · split
      · exact ih _ w rfl
      · exact ih st u h

theorem dlcsScore_nonneg (cs : List Clause) (v : Int) : 0 ≤ dlcsScore cs v := by
  rw [dlcsScore]
  omega

theorem cbvGo_cons_assigned {cs : List Clause} {a : Assignment} {w : Int} {ws : List Int}
    {st : Option Int × Int × Bool} (h : (List.lookup w a).isSome = true) :
    cbvGo cs a (w :: ws) st = cbvGo cs a ws st := by
  simp only [cbvGo]
  rw [if_pos h]

theorem cbvGo_cons_update {cs : List Clause} {a : Assignment} {w : Int} {ws : List Int}
    {st : Option Int × Int × Bool} (h : ¬ (List.lookup w a).isSome = true)
    (h2 : st.2.1 < dlcsScore cs w) :
    cbvGo cs a (w :: ws) st =
      cbvGo cs a ws (some w, dlcsScore cs w, decide (negCnt cs w ≤ posCnt cs w)) := by
  rw [dlcsScore] at h2
  simp only [cbvGo, dlcsScore]
  rw [if_neg h, if_pos h2]

theorem cbvGo_cons_keep {cs : List Clause} {a : Assignment} {w : Int} {ws : List Int}
    {st : Option Int × Int × Bool} (h : ¬ (List.lookup w a).isSome = true)
    (h2 : ¬ st.2.1 < dlcsScore cs w) :
    cbvGo cs a (w :: ws) st = cbvGo cs a ws st := by
  rw [dlcsScore] at h2
  simp only [cbvGo, dlcsScore]
  rw [if_neg h, if_neg h2]

theorem cbvGo_none_iff (cs : List Clause) (a : Assignment) :
    ∀ (vs : List Int) (st : Option Int × Int × Bool),
      (st.1 = none → st.2.1 = -1) →
      ((cbvGo cs a vs st).1 = none ↔ st.1 = none ∧ ∀ v ∈ vs, (List.lookup v a).isSome) := by
  intro vs
  induction vs with
  | nil =>
    intro st hn
    simp [cbvGo]
  | cons w ws ih =>
    intro st hn
    by_cases hw : (List.lookup w a).isSome
    · rw [cbvGo_cons_assigned hw, ih st hn]
      constructor
      · rintro ⟨h1, h2⟩
        refine ⟨h1, fun v hv => ?_⟩
        rcases List.mem_cons.mp hv with rfl | hv'
        · exact hw
        · exact h2 v hv'
      · rintro ⟨h1, h2⟩
        exact ⟨h1, fun v hv => h2 v (List.mem_cons_of_mem _ hv)⟩
    · by_cases hlt : st.2.1 < dlcsScore cs w
      · rw [cbvGo_cons_update hw hlt]
        obtain ⟨u', hu'⟩ := cbvGo_some_stays cs a ws
          (some w, dlcsScore cs w, decide (negCnt cs w ≤ posCnt cs w)) w rfl
        rw [hu']
        constructor
        · intro h; simp at h
        · rintro ⟨-, h2⟩
          exact absurd (h2 w (List.mem_cons_self _ _)) hw
      · rw [cbvGo_cons_keep hw hlt, ih st hn]
        have hnn := dlcsScore_nonneg cs w
        constructor
        · rintro ⟨h1, -⟩
          exfalso
          rw [hn h1] at hlt
          omega
        · rintro ⟨h1, -⟩
          exfalso
          rw [hn h1] at hlt
          omega

theorem cbvGo_spec (cs : List Clause) (a : Assignment) :
    ∀ (vs : List Int) (st : Option Int × Int × Bool),
      List.Pairwise (· < ·) vs →
      (st.1 = none → st.2.1 = -1) →
      (∀ u, st.1 = some u → List.lookup u a = none ∧
        st.2.1 = dlcsScore cs u ∧
        st.2.2 = decide (negCnt cs u ≤ posCnt cs u) ∧
        ∀ w ∈ vs, u < w) →
      ∀ v, (cbvGo cs a vs st).1 = some v →
        List.lookup v a = none ∧
        (cbvGo cs a vs st).2.1 = dlcsScore cs v ∧
        (cbvGo cs a vs st).2.2 = decide (negCnt cs v ≤ posCnt cs v) ∧
        (st.1 = some v ∨ v ∈ vs) ∧
        st.2.1 ≤ dlcsScore cs v ∧
        (∀ u, st.1 = some u → v ≠ u → st.2.1 < dlcsScore cs v) ∧
        (∀ w ∈ vs, List.lookup w a = none → dlcsScore cs w ≤ dlcsScore cs v) ∧
        (∀ w ∈ vs, List.lookup w a = none → dlcsScore cs w = dlcsScore cs v → v ≤ w) := by
  intro vs
  induction vs with
  | nil =>
    intro st hsort hn hs v hv
    have hv' : st.1 = some v := hv
    obtain ⟨hun, hsc, hpf, -⟩ := hs v hv'
    refine ⟨hun, hsc, hpf, Or.inl hv', le_of_eq hsc, ?_, ?_, ?_⟩
    · intro u hu hne
      rw [hv'] at hu
      exact absurd (Option.some_inj.mp hu) hne
    · intro w hw; simp at hw
    · intro w hw; simp at hw
  | cons w ws ih =>
    intro st hsort hn hs v hv
    have hsort' := (List.pairwise_cons.mp hsort).2
    have hwlt := (List.pairwise_cons.mp hsort).1
    by_cases hw : (List.lookup w a).isSome
    · rw [cbvGo_cons_assigned hw] at hv ⊢
      have hs' : ∀ u, st.1 = some u → List.lookup u a = none ∧
          st.2.1 = dlcsScore cs u ∧
          st.2.2 = decide (negCnt cs u ≤ posCnt cs u) ∧ ∀ w' ∈ ws, u < w' := fun u hu =>
        ⟨(hs u hu).1, (hs u hu).2.1, (hs u hu).2.2.1,
          fun w' hw' => (hs u hu).2.2.2 w' (List.mem_cons_of_mem _ hw')⟩
      obtain ⟨h1, h2, h3, h4, h5, h6, h7, h8⟩ := ih st hsort' hn hs' v hv
      refine ⟨h1, h2, h3, h4.imp id (List.mem_cons_of_mem _), h5, h6, ?_, ?_⟩
      · intro w' hw' hwun'
        rcases List.mem_cons.mp hw' with rfl | hmem
        · rw [hwun'] at hw; simp at hw
        · exact h7 w' hmem hwun'
      · intro w' hw' hwun' heq
        rcases List.mem_cons.mp hw' with rfl | hmem
        · rw [hwun'] at hw; simp at hw
        · exact h8 w' hmem hwun' heq
    · have hwun : List.lookup w a = none := by
        cases hlw : List.lookup w a with
        | none => rfl
        | some b => rw [hlw] at hw; simp at hw
      by_cases hlt : st.2.1 < dlcsScore cs w
      · rw [cbvGo_cons_update hw hlt] at hv ⊢
        have hs' : ∀ u, (some w : Option Int) = some u →
            List.lookup u a = none ∧
            dlcsScore cs w = dlcsScore cs u ∧
            decide (negCnt cs w ≤ posCnt cs w) = decide (negCnt cs u ≤ posCnt cs u) ∧
            ∀ w' ∈ ws, u < w' := by
          intro u hu
          obtain rfl : w = u := Option.some_inj.mp hu
          exact ⟨hwun, rfl, rfl, hwlt⟩
        obtain ⟨h1, h2, h3, h4, h5, h6, h7, h8⟩ :=
          ih (some w, dlcsScore cs w, decide (negCnt cs w ≤ posCnt cs w))
            hsort' (by intro h; simp at h) hs' v hv
        have h5' : dlcsScore cs w ≤ dlcsScore cs v := h5
        refine ⟨h1, h2, h3, Or.inr ?_, by omega, fun u hu hne => by omega, ?_, ?_⟩
        · rcases h4 with h' | h'
          · have hwv : w = v := Option.some_inj.mp h'
            exact hwv ▸ List.mem_cons_self _ _
          · exact List.mem_cons_of_mem _ h'
        · intro w' hw' hwun'
          rcases List.mem_cons.mp hw' with rfl | hmem
          · exact h5'
          · exact h7 w' hmem hwun'
        · intro w' hw' hwun' heq
          rcases List.mem_cons.mp hw' with rfl | hmem
          · rcases h4 with h' | h'
            · have hwv : w' = v := Option.some_inj.mp h'
              omega
            · have hwv : w' < v := hwlt v h'
              have h6' : dlcsScore cs w' < dlcsScore cs v := h6 w' rfl (by omega)
              omega
          · exact h8 w' hmem hwun' heq
      · rw [cbvGo_cons_keep hw hlt] at hv ⊢
        have hstsome : ∃ u, st.1 = some u := by
          cases hst : st.1 with
          | none =>
            exfalso
            rw [hn hst] at hlt
            have := dlcsScore_nonneg cs w
            omega
          | some u => exact ⟨u, rfl⟩
        obtain ⟨u, hst⟩ := hstsome
        have hs' : ∀ u', st.1 = some u' → List.lookup u' a = none ∧
            st.2.1 = dlcsScore cs u' ∧
            st.2.2 = decide (negCnt cs u' ≤ posCnt cs u') ∧ ∀ w' ∈ ws, u' < w' := fun u' hu' =>
          ⟨(hs u' hu').1, (hs u' hu').2.1, (hs u' hu').2.2.1,
            fun w' hw' => (hs u' hu').2.2.2 w' (List.mem_cons_of_mem _ hw')⟩
        obtain ⟨h1, h2, h3, h4, h5, h6, h7, h8⟩ := ih st hsort' hn hs' v hv
        obtain ⟨huun, husc, hupf, hult⟩ := hs u hst
        have huw : u < w := hult w (List.mem_cons_self _ _)
        refine ⟨h1, h2, h3, h4.imp id (List.mem_cons_of_mem _), h5, h6, ?_, ?_⟩
        · intro w' hw' hwun'
          rcases List.mem_cons.mp hw' with rfl | hmem
          · have h5' : st.2.1 ≤ dlcsScore cs v := h5
            omega
          · exact h7 w' hmem hwun'
        · intro w' hw' hwun' heq
          rcases List.mem_cons.mp hw' with rfl | hmem
          · rcases h4 with h' | h'
            · rw [hst] at h'
              have huv : u = v := Option.some_inj.mp h'
              omega
            · have hwv : w' < v := hwlt v h'
              have h6' : st.2.1 < dlcsScore cs v := h6 u hst (by omega)
              omega
          · exact h8 w' hmem hwun' heq

theorem varRange_sorted (n : Nat) : List.Pairwise (· < ·) (varRange n) := by
  rw [varRange]
  refine List.Pairwise.map _ ?_ (List.pairwise_lt_range n)
  intro a b hab
  simp only [Int.ofNat_eq_natCast]
  omega

/-- **C6 (amended)**.  `_choose_branch_var` scans the variables
`1..num_vars` in increasing order, skipping assigned ones; among the
unassigned variables (whether or not they occur in the clause set) it
returns the first one whose DLCS score `p + n` is maximal, with
preferred polarity positive iff `p >= n`.  It signals "no candidate"
(`best_var = None`) exactly when every variable in `1..num_vars` is
assigned — contrary to the original claim, when no unassigned variable
occurs in the clauses but some variable is unassigned, it returns the
smallest unassigned variable (score `0` beats the initial best `-1`)
rather than no candidate. -/
theorem choose_branch_var_dlcs (cs : List Clause) (a : Assignment) (numVars : Nat) :
    ((_choose_branch_var cs a numVars).1 = none ↔
      ∀ v ∈ varRange numVars, (List.lookup v a).isSome) ∧
    ∀ v, (_choose_branch_var cs a numVars).1 = some v →
      v ∈ varRange numVars ∧
      List.lookup v a = none ∧
      (∀ w ∈ varRange numVars, List.lookup w a = none → dlcsScore cs w ≤ dlcsScore cs v) ∧
      (∀ w ∈ varRange numVars, List.lookup w a = none →
        dlcsScore cs w = dlcsScore cs v → v ≤ w) ∧
      (_choose_branch_var cs a numVars).2 = decide (negCnt cs v ≤ posCnt cs v) := by
  constructor
  · show (cbvGo cs a (varRange numVars) (none, -1, true)).1 = none ↔ _
    rw [cbvGo_none_iff cs a (varRange numVars) (none, -1, true) (fun _ => rfl)]
    simp
  · intro v hv
    have hv' : (cbvGo cs a (varRange numVars) (none, -1, true)).1 = some v := hv
    obtain ⟨h1, h2, h3, h4, h5, h6, h7, h8⟩ :=
      cbvGo_spec cs a (varRange numVars) (none, -1, true) (varRange_sorted numVars)
        (fun _ => rfl) (by intro u hu; simp at hu) v hv'
    refine ⟨?_, h1, h7, h8, h3⟩
    rcases h4 with h' | h'
    · simp at h'
    · exact h'

/-- Witness for the amended C6: on `[[1, -2], [-2, 3]]` with the empty
assignment and `num_vars = 3`, the chosen variable is `2` (score 2,
maximal, beating variable 1) with negative preferred polarity. -/
theorem choose_branch_var_dlcs_witness :
    (2 : Int) ∈ varRange 3 ∧
    List.lookup (2 : Int) ([] : Assignment) = none ∧
    dlcsScore [[1, -2], [-2, 3]] 1 ≤ dlcsScore [[1, -2], [-2, 3]] 2 ∧
    (2 : Int) ≤ 2 ∧
    (_choose_branch_var [[1, -2], [-2, 3]] [] 3).2 =
      decide (negCnt [[1, -2], [-2, 3]] 2 ≤ posCnt [[1, -2], [-2, 3]] 2) := by
  have h := (choose_branch_var_dlcs [[1, -2], [-2, 3]] [] 3).2 2 (by decide)
  exact ⟨h.1, h.2.1, h.2.2.1 1 (by decide) (by decide),
    h.2.2.2.1 2 (by decide) (by decide) rfl, h.2.2.2.2⟩

theorem simplifyUnit_struct {lit : Lit} :
    ∀ {cs cs' : List Clause}, simplifyUnit lit cs = some cs' →
    ∀ c' ∈ cs', (c' ∈ cs ∧ lit ∉ c' ∧ -lit ∉ c') ∨
      (∃ c ∈ cs, lit ∉ c ∧ -lit ∈ c ∧ c' = c.erase (-lit)) := by
  intro cs
  induction cs with
  | nil =>
    intro cs' h c' hc'
    cases h
    simp at hc'
  | cons c cs ih =>
    intro cs' h c' hc'
    simp only [simplifyUnit] at h
    by_cases h1 : lit ∈ c
    · rw [if_pos h1] at h
      rcases ih h c' hc' with ⟨hm, hp⟩ | ⟨d, hd, hp⟩
      · exact Or.inl ⟨List.mem_cons_of_mem _ hm, hp⟩
      · exact Or.inr ⟨d, List.mem_cons_of_mem _ hd, hp⟩
    · rw [if_neg h1] at h
      by_cases h2 : -lit ∈ c
      · rw [if_pos h2] at h
        by_cases h3 : (c.erase (-lit)).isEmpty
        · rw [if_pos h3] at h
          exact absurd h (by simp)
        · rw [if_neg h3] at h
          obtain ⟨cs'', hsu, rfl⟩ := Option.map_eq_some'.mp h
          rcases List.mem_cons.mp hc' with rfl | hmem
          · exact Or.inr ⟨c, List.mem_cons_self _ _, h1, h2, rfl⟩
          · rcases ih hsu c' hmem with ⟨hm, hp⟩ | ⟨d, hd, hp⟩
            · exact Or.inl ⟨List.mem_cons_of_mem _ hm, hp⟩
            · exact Or.inr ⟨d, List.mem_cons_of_mem _ hd, hp⟩
      · rw [if_neg h2] at h
        obtain ⟨cs'', hsu, rfl⟩ := Option.map_eq_some'.mp h
        rcases List.mem_cons.mp hc' with rfl | hmem
        · exact Or.inl ⟨List.mem_cons_self _ _, h1, h2⟩
        · rcases ih hsu c' hmem with ⟨hm, hp⟩ | ⟨d, hd, hp⟩
          · exact Or.inl ⟨List.mem_cons_of_mem _ hm, hp⟩
          · exact Or.inr ⟨d, List.mem_cons_of_mem _ hd, hp⟩

theorem simplifyUnit_clean {lit : Lit} {cs cs' : List Clause}
    (h : simplifyUnit lit cs = some cs') (hnd : ∀ c ∈ cs, c.Nodup) :
    ∀ c' ∈ cs', c'.Nodup ∧ lit ∉ c' ∧ -lit ∉ c' ∧ ∀ l ∈ c', ∃ c ∈ cs, l ∈ c := by
  intro c' hc'
  rcases simplifyUnit_struct h c' hc' with ⟨hm, hl1, hl2⟩ | ⟨c, hcm, hl1, hl2, rfl⟩
  · exact ⟨hnd c' hm, hl1, hl2, fun l hl => ⟨c', hm, hl⟩⟩
  · refine ⟨(hnd c hcm).erase _, ?_, ?_, fun l hl => ⟨c, hcm, List.erase_subset _ _ hl⟩⟩
    · intro hmem
      exact hl1 (List.erase_subset _ _ hmem)
    · intro hmem
      exact ((hnd c hcm).mem_erase_iff.mp hmem).1 rfl

theorem step_clean {lit : Lit} {cs cs1 : List Clause} {a : Assignment}
    (hsu : simplifyUnit lit cs = some cs1) (hcl : cleanState a cs) :
    cleanState (insertA a |lit| (decide (0 < lit))) cs1 := by
  constructor
  · intro c' hc'
    exact (simplifyUnit_clean hsu hcl.1 c' hc').1
  · intro c' hc' l hlc
    obtain ⟨-, hlit1, hlit2, hsub⟩ := simplifyUnit_clean hsu hcl.1 c' hc'
    obtain ⟨c, hcm, hlm⟩ := hsub l hlc
    have hnone : List.lookup |l| a = none := hcl.2 c hcm l hlm
    have hne : |l| ≠ |lit| := by
      intro he
      rcases abs_eq_abs.mp he with rfl | rfl
      · exact hlit1 hlc
      · exact hlit2 hlc
    rw [lookup_insertA_ne _ hne]
    exact hnone

theorem processUnits_clean :
    ∀ (lits : List Lit) (cs : List Clause) (a : Assignment) (cs' : List Clause) (a' : Assignment),
      processUnits lits cs a = (cs', a', false) → cleanState a cs →
      cleanState a' cs' ∧ ∀ c' ∈ cs', ∀ l ∈ c', ∃ c ∈ cs, l ∈ c := by
  intro lits
  induction lits with
  | nil =>
    intro cs a cs' a' h hcl
    cases h
    exact ⟨hcl, fun c' hc' l hl => ⟨c', hc', hl⟩⟩
  | cons lit rest ih =>
    intro cs a cs' a' h hcl
    simp only [processUnits] at h
    split at h
    · split at h
      · exact ih cs a cs' a' h hcl
      · simp at h
    · split at h
      · simp at h
      · rename_i cs1 hsu
        have hclean1 := step_clean hsu hcl
        obtain ⟨hcl', hsub'⟩ := ih cs1 (insertA a |lit| (decide (0 < lit))) cs' a' h hclean1
        refine ⟨hcl', fun c' hc' l hlc => ?_⟩
        obtain ⟨c1, hc1, hl1⟩ := hsub' c' hc' l hlc
        obtain ⟨-, -, -, hsub1⟩ := simplifyUnit_clean hsu hcl.1 c1 hc1
        exact hsub1 l hl1

theorem unitLits_head {cs : List Clause} {l1 : Lit} {rest : List Lit}
    (h : unitLits cs = l1 :: rest) : [l1] ∈ cs := by
  rw [unitLits] at h
  obtain ⟨c, hc, hfc⟩ := head_of_filterMap _ cs l1 rest h
  cases c with
  | nil => simp at hfc
  | cons x t =>
    cases t with
    | nil =>
      have hx : some x = some l1 := hfc
      rw [Option.some_inj.mp hx] at hc
      exact hc
    | cons y t2 => simp at hfc

theorem mem_varsF {cs : List Clause} {x : Int} :
    x ∈ varsF cs ↔ ∃ c ∈ cs, ∃ l ∈ c, |l| = x := by
  rw [varsF, List.mem_toFinset, List.mem_map]
  constructor
  · rintro ⟨l, hl, rfl⟩
    obtain ⟨c, hc, hlc⟩ := List.mem_flatten.mp hl
    exact ⟨c, hc, l, hlc, rfl⟩
  · rintro ⟨c, hc, l, hlc, rfl⟩
    exact ⟨l, List.mem_flatten.mpr ⟨c, hc, hlc⟩, rfl⟩

theorem up_measure_lt {cs : List Clause} {a : Assignment} {cs' : List Clause} {a' : Assignment}
    (hcl : cleanState a cs) (hne : ¬ (unitLits cs).isEmpty = true)
    (h : processUnits (unitLits cs) cs a = (cs', a', false)) :
    (varsF cs').card < (varsF cs).card := by
  obtain ⟨l1, rest, hcons⟩ : ∃ l1 rest, unitLits cs = l1 :: rest := by
    cases hu : unitLits cs with
    | nil => rw [hu] at hne; simp at hne
    | cons x t => exact ⟨x, t, rfl⟩
  have hu1 : [l1] ∈ cs := unitLits_head hcons
  rw [hcons] at h
  simp only [processUnits] at h
  have hnone : List.lookup |l1| a = none := hcl.2 [l1] hu1 l1 (by simp)
  split at h
  · rename_i b heq
    rw [hnone] at heq
    simp at heq
  · split at h
    · simp at h
    · rename_i cs1 hsu
      have hclean1 := step_clean hsu hcl
      obtain ⟨-, hsub'⟩ := processUnits_clean rest cs1 _ cs' a' h hclean1
      have hsubs : varsF cs' ⊆ varsF cs := by
        intro x hx
        obtain ⟨c', hc', l, hlc, rfl⟩ := mem_varsF.mp hx
        obtain ⟨c1, hc1, hl1⟩ := hsub' c' hc' l hlc
        obtain ⟨-, -, -, hsub1⟩ := simplifyUnit_clean hsu hcl.1 c1 hc1
        obtain ⟨c, hc, hl⟩ := hsub1 l hl1
        exact mem_varsF.mpr ⟨c, hc, l, hl, rfl⟩
      have hmem : |l1| ∈ varsF cs := mem_varsF.mpr ⟨[l1], hu1, l1, by simp, rfl⟩
      have hnotmem : |l1| ∉ varsF cs' := by
        intro hx
        obtain ⟨c', hc', l, hlc, habs⟩ := mem_varsF.mp hx
        obtain ⟨c1, hc1, hl1⟩ := hsub' c' hc' l hlc
        obtain ⟨-, hlit1, hlit2, -⟩ := simplifyUnit_clean hsu hcl.1 c1 hc1
        rcases abs_eq_abs.mp habs with rfl | rfl
        · exact hlit1 hl1
        · exact hlit2 hl1
      exact Finset.card_lt_card
        ((Finset.ssubset_iff_of_subset hsubs).mpr ⟨|l1|, hmem, hnotmem⟩)

theorem up_clean :
    ∀ (fuel : Nat) (cs : List Clause) (a : Assignment) (cs' : List Clause) (a' : Assignment),
      _unit_propagate fuel cs a = some (cs', a', false) → cleanState a cs →
      cleanState a' cs' := by
  intro fuel
  induction fuel with
  | zero => intro cs a cs' a' h; simp [_unit_propagate] at h
  | succ f ih =>
    intro cs a cs' a' h hcl
    simp only [_unit_propagate] at h
    split at h
    · cases h
      exact hcl
    · split at h
      · cases h
      · rename_i cs1 a1 hpu
        exact ih cs1 a1 cs' a' h (processUnits_clean (unitLits cs) cs a cs1 a1 hpu hcl).1

theorem up_some :
    ∀ (fuel : Nat) (cs : List Clause) (a : Assignment),
      cleanState a cs → (varsF cs).card < fuel →
      ∃ r, _unit_propagate fuel cs a = some r := by
  intro fuel
  induction fuel with
  | zero => intro cs a hcl hcard; omega
  | succ f ih =>
    intro cs a hcl hcard
    simp only [_unit_propagate]
    by_cases hu : (unitLits cs).isEmpty
    · rw [if_pos hu]
      exact ⟨(cs, a, false), rfl⟩
    · rw [if_neg hu]
      cases hpu : processUnits (unitLits cs) cs a with
      | mk cs1 r1 =>
        obtain ⟨a1, flag⟩ := r1
        cases flag with
        | true => exact ⟨(cs1, a1, true), rfl⟩
        | false =>
          have hcl1 := (processUnits_clean (unitLits cs) cs a cs1 a1 hpu hcl).1
          have hlt := up_measure_lt hcl hu hpu
          obtain ⟨r, hr⟩ := ih cs1 a1 hcl1 (by omega)
          exact ⟨r, hr⟩

theorem posCnt_eq_zero {cs : List Clause} {v : Int} (h : posCnt cs v = 0) :
    ∀ c ∈ cs, ∀ l ∈ c, ¬(0 < l ∧ |l| = v) := by
  intro c hc l hl hp
  rw [posCnt, List.sum_eq_zero_iff] at h
  have hcnt := h (c.countP (fun l => decide (0 < l ∧ |l| = v))) (List.mem_map_of_mem _ hc)
  rw [List.countP_eq_zero] at hcnt
  exact absurd (by simpa using hp) (by simpa using hcnt l hl)

theorem negCnt_eq_zero {cs : List Clause} {v : Int} (h : negCnt cs v = 0) :
    ∀ c ∈ cs, ∀ l ∈ c, ¬(¬ 0 < l ∧ |l| = v) := by
  intro c hc l hl hp
  rw [negCnt, List.sum_eq_zero_iff] at h
  have hcnt := h (c.countP (fun l => decide (¬ 0 < l ∧ |l| = v))) (List.mem_map_of_mem _ hc)
  rw [List.countP_eq_zero] at hcnt
  exact absurd (by simpa using hp) (by simpa using hcnt l hl)

theorem detect_pol {cs : List Clause} {a : Assignment} {p : Int × Bool}
    (hp : p ∈ detectPures cs a) :
    ∀ c ∈ cs, ∀ l ∈ c, |l| = p.1 → l = (if p.2 then p.1 else -p.1) := by
  intro c hc l hl habs
  obtain ⟨-, hT, hF⟩ := detectPures_mem_spec hp
  cases hval : p.2 with
  | true =>
    obtain ⟨-, hzero⟩ := hT hval
    have := negCnt_eq_zero hzero c hc l hl
    rw [if_pos rfl]
    by_cases hlp : 0 < l
    · rw [abs_of_pos hlp] at habs
      exact habs
    · exact absurd ⟨hlp, habs⟩ this
  | false =>
    obtain ⟨-, hzero⟩ := hF hval
    have := posCnt_eq_zero hzero c hc l hl
    rw [if_neg (by simp)]
    by_cases hlp : 0 < l
    · exact absurd ⟨hlp, habs⟩ this
    · rw [abs_of_nonpos (le_of_not_lt hlp)] at habs
      rw [← habs]
      simp

theorem applyPures_clean :
    ∀ (ps : List (Int × Bool)) (cs : List Clause) (a : Assignment),
      cleanState a cs →
      (ps.map Prod.fst).Nodup →
      (∀ p ∈ ps, List.lookup p.1 a = none) →
      (∀ p ∈ ps, ∀ c ∈ cs, ∀ l ∈ c, |l| = p.1 → l = (if p.2 then p.1 else -p.1)) →
      cleanState (applyPures ps cs a).2 (applyPures ps cs a).1 := by
  intro ps
  induction ps with
  | nil => intro cs a hcl _ _ _; exact hcl
  | cons p rest ih =>
    intro cs a hcl hnd hun hpol
    obtain ⟨v, val⟩ := p
    simp only [applyPures]
    rw [List.map_cons] at hnd
    have hnd' := List.nodup_cons.mp hnd
    have hvun : List.lookup v a = none := hun (v, val) (List.mem_cons_self _ _)
    have hpolv := hpol (v, val) (List.mem_cons_self _ _)
    have hcl1 : cleanState (insertA a v val)
        (cs.filter (fun c => ¬ (if val then v else -v) ∈ c)) := by
      constructor
      · intro c hc
        exact hcl.1 c (List.mem_filter.mp hc).1
      · intro c hc l hl
        obtain ⟨hcm, hcf⟩ := List.mem_filter.mp hc
        have hnone := hcl.2 c hcm l hl
        have hne : |l| ≠ v := by
          intro he
          have hlit := hpolv c hcm l hl he
          rw [hlit] at hl
          have hcf' : (if val then v else -v) ∉ c := by simpa using hcf
          exact hcf' hl
        rw [lookup_insertA_ne _ hne]
        exact hnone
    refine ih _ _ hcl1 hnd'.2 ?_ ?_
    · intro q hq
      have hneq : q.1 ≠ v := by
        intro he
        apply hnd'.1
        rw [← he]
        exact List.mem_map.mpr ⟨q, hq, rfl⟩
      rw [lookup_insertA_ne _ hneq]
      exact hun q (List.mem_cons_of_mem _ hq)
    · intro q hq c hc l hl habs
      exact hpol q (List.mem_cons_of_mem _ hq) c (List.mem_filter.mp hc).1 l hl habs

theorem pureElimLoop_clean :
    ∀ (fuel : Nat) (cs : List Clause) (a : Assignment),
      cleanState a cs → cleanState (pureElimLoop fuel cs a).2 (pureElimLoop fuel cs a).1 := by
  intro fuel
  induction fuel with
  | zero => intro cs a hcl; exact hcl
  | succ f ih =>
    intro cs a hcl
    simp only [pureElimLoop]
    split
    · exact hcl
    · refine ih _ _ (applyPures_clean (detectPures cs a) cs a hcl
        (detectPures_keys_nodup cs a) (fun p hp => (detectPures_mem_spec hp).1) ?_)
      intro p hp
      exact detect_pol hp

theorem pure_elim_clean (cs : List Clause) (a : Assignment) (hcl : cleanState a cs) :
    cleanState (_pure_literal_elim cs a).2 (_pure_literal_elim cs a).1 :=
  pureElimLoop_clean _ cs a hcl

theorem simplify_after_struct {cs : List Clause} {lit : Lit} {c' : Clause}
    (h : c' ∈ _simplify_after_assignment cs lit) :
    ∃ c ∈ cs, lit ∉ c ∧ ((-lit ∉ c ∧ c' = c) ∨ (-lit ∈ c ∧ c' = c.erase (-lit))) := by
  rw [_simplify_after_assignment, List.mem_filterMap] at h
  obtain ⟨c, hc, hfc⟩ := h
  by_cases h1 : lit ∈ c
  · rw [if_pos h1] at hfc
    simp at hfc
  · rw [if_neg h1] at hfc
    by_cases h2 : -lit ∈ c
    · rw [if_pos h2] at hfc
      exact ⟨c, hc, h1, Or.inr ⟨h2, (Option.some_inj.mp hfc).symm⟩⟩
    · rw [if_neg h2] at hfc
      exact ⟨c, hc, h1, Or.inl ⟨h2, (Option.some_inj.mp hfc).symm⟩⟩

theorem simplify_after_clean {cs : List Clause} {a : Assignment} {v : Int} (tv : Bool)
    (hcl : cleanState a cs) (hv : 1 ≤ v) :
    cleanState (insertA a v tv) (_simplify_after_assignment cs (if tv then v else -v)) := by
  have habs : |(if tv then v else -v)| = v := by
    cases tv
    · simp only [Bool.false_eq_true, if_false]
      rw [abs_of_nonpos (by omega)]
      omega
    · simp only [if_true]
      rw [abs_of_pos (by omega)]
  constructor
  · intro c' hc'
    obtain ⟨c, hc, h1, hcase⟩ := simplify_after_struct hc'
    rcases hcase with ⟨h2, rfl⟩ | ⟨h2, rfl⟩
    · exact hcl.1 _ hc
    · exact (hcl.1 _ hc).erase _
  · intro c' hc' l hl
    obtain ⟨c, hc, h1, hcase⟩ := simplify_after_struct hc'
    have hlc : l ∈ c ∧ l ≠ (if tv then v else -v) ∧ l ≠ -(if tv then v else -v) := by
      rcases hcase with ⟨h2, rfl⟩ | ⟨h2, rfl⟩
      · exact ⟨hl, fun he => h1 (he ▸ hl), fun he => h2 (he ▸ hl)⟩
      · have hrec := (hcl.1 c hc).mem_erase_iff.mp hl
        exact ⟨hrec.2, fun he => h1 (he ▸ hrec.2), hrec.1⟩
    have hnone := hcl.2 c hc l hlc.1
    have hne : |l| ≠ v := by
      intro he
      have habs2 : |l| = |(if tv then v else -v)| := by rw [he, habs]
      rcases abs_eq_abs.mp habs2 with he2 | he2
      · exact hlc.2.1 he2
      · exact hlc.2.2 he2
    rw [lookup_insertA_ne _ hne]
    exact hnone

theorem lookup_insertA_none {a : Assignment} {v w : Int} {b : Bool}
    (h : List.lookup w (insertA a v b) = none) : List.lookup w a = none := by
  cases hw : List.lookup w a with
  | none => rfl
  | some c =>
    rw [lookup_insertA_of_some v b hw] at h
    cases h

theorem unassignedCount_mono {a a' : Assignment} (hext : extendsA a a') (n : Nat) :
    unassignedCount a' n ≤ unassignedCount a n := by
  apply Finset.card_le_card
  intro i hi
  rw [Finset.mem_filter] at hi ⊢
  obtain ⟨hir, hinone⟩ := hi
  refine ⟨hir, ?_⟩
  cases hla : List.lookup (Int.ofNat i + 1) a with
  | none => simp
  | some b =>
    rw [hext _ _ hla] at hinone
    simp at hinone

theorem unassignedCount_insert_lt {a : Assignment} {v : Int} (tv : Bool) {n : Nat}
    (h1 : 1 ≤ v) (h2 : v ≤ (n : Int)) (hun : List.lookup v a = none) :
    unassignedCount (insertA a v tv) n < unassignedCount a n := by
  apply Finset.card_lt_card
  rw [Finset.ssubset_iff_of_subset]
  · have hv : Int.ofNat ((v - 1).toNat) + 1 = v := by
      simp only [Int.ofNat_eq_natCast]
      omega
    refine ⟨(v - 1).toNat, ?_, ?_⟩
    · rw [Finset.mem_filter]
      refine ⟨Finset.mem_range.mpr (by omega), ?_⟩
      rw [hv, hun]
      rfl
    · rw [Finset.mem_filter]
      rintro ⟨-, habs⟩
      rw [hv, lookup_insertA_self tv hun] at habs
      simp at habs
  · intro i hi
    rw [Finset.mem_filter] at hi ⊢
    refine ⟨hi.1, ?_⟩
    have h := hi.2
    cases hla : List.lookup (Int.ofNat i + 1) (insertA a v tv) with
    | some b => rw [hla] at h; simp at h
    | none =>
      rw [lookup_insertA_none hla]
      rfl

theorem dpll_some :
    ∀ (fuel : Nat) (cs : List Clause) (a : Assignment) (numVars : Nat),
      cleanState a cs → unassignedCount a numVars < fuel →
      ∃ r, _dpll fuel cs a numVars = some r := by
  intro fuel
  induction fuel with
  | zero => intro cs a n hcl hcount; omega
  | succ f ih =>
    intro cs a n hcl hcount
    have hupcard : (varsF cs).card < upFuel cs := by
      rw [upFuel, varsF, List.card_toFinset]
      omega
    obtain ⟨⟨cs1, r1⟩, hup⟩ := up_some (upFuel cs) cs a hcl hupcard
    obtain ⟨a1, flag⟩ := r1
    cases flag with
    | true =>
      refine ⟨(false, []), ?_⟩
      simp only [_dpll, hup]
    | false =>
      have hcl1 : cleanState a1 cs1 := up_clean _ _ _ _ _ hup hcl
      have hcl2 := pure_elim_clean cs1 a1 hcl1
      have hext1 := up_extends _ _ _ _ _ _ hup
      have hext2 := (pure_elim_sound cs1 a1).1
      have hcount2 : unassignedCount (_pure_literal_elim cs1 a1).2 n ≤ unassignedCount a n :=
        le_trans (unassignedCount_mono hext2 n) (unassignedCount_mono hext1 n)
      by_cases hemp : (_pure_literal_elim cs1 a1).1.isEmpty = true
      · refine ⟨(true, (_pure_literal_elim cs1 a1).2), ?_⟩
        simp only [_dpll, hup]
        rw [if_pos hemp]
      · by_cases hec : _contains_empty_clause (_pure_literal_elim cs1 a1).1 = true
        · refine ⟨(false, []), ?_⟩
          simp only [_dpll, hup]
          rw [if_neg hemp, if_pos hec]
        · cases hcbv : _choose_branch_var (_pure_literal_elim cs1 a1).1
              (_pure_literal_elim cs1 a1).2 n with
          | mk ov pref =>
            cases ov with
            | none =>
              refine ⟨(false, []), ?_⟩
              simp only [_dpll, hup]
              rw [if_neg hemp, if_neg hec]
              simp only [hcbv]
            | some v =>
              obtain ⟨hv1, hvn, hvun⟩ := choose_branch_var_some hcbv
              have hcnext : unassignedCount (insertA (_pure_literal_elim cs1 a1).2 v pref) n < f :=
                lt_of_lt_of_le (unassignedCount_insert_lt pref hv1 hvn hvun)
                  (le_trans hcount2 (Nat.lt_succ_iff.mp hcount))
              have hcnext2 : unassignedCount (insertA (_pure_literal_elim cs1 a1).2 v (!pref)) n < f :=
                lt_of_lt_of_le (unassignedCount_insert_lt (!pref) hv1 hvn hvun)
                  (le_trans hcount2 (Nat.lt_succ_iff.mp hcount))
              have hlit1 : (if pref then v else -v) = (if pref then v else -v) := rfl
              have hlit2eq : (if pref then -v else v) = (if !pref then v else -v) := by
                cases pref <;> rfl
              have hr1 : ∃ r1, (if _contains_empty_clause
                  (_simplify_after_assignment (_pure_literal_elim cs1 a1).1
                    (if pref then v else -v)) = true then some (false, ([] : Assignment))
                else _dpll f (_simplify_after_assignment (_pure_literal_elim cs1 a1).1
                    (if pref then v else -v))
                  (insertA (_pure_literal_elim cs1 a1).2 v pref) n) = some r1 := by
                by_cases hce : _contains_empty_clause (_simplify_after_assignment
                    (_pure_literal_elim cs1 a1).1 (if pref then v else -v)) = true
                · exact ⟨(false, []), by rw [if_pos hce]⟩
                · rw [if_neg hce]
                  exact ih _ _ n (simplify_after_clean pref hcl2 hv1) hcnext
              have hr2 : ∃ r2, (if _contains_empty_clause
                  (_simplify_after_assignment (_pure_literal_elim cs1 a1).1
                    (if pref then -v else v)) = true then some (false, ([] : Assignment))
                else _dpll f (_simplify_after_assignment (_pure_literal_elim cs1 a1).1
                    (if pref then -v else v))
                  (insertA (_pure_literal_elim cs1 a1).2 v (!pref)) n) = some r2 := by
                by_cases hce : _contains_empty_clause (_simplify_after_assignment
                    (_pure_literal_elim cs1 a1).1 (if pref then -v else v)) = true
                · exact ⟨(false, []), by rw [if_pos hce]⟩
                · rw [if_neg hce]
                  rw [hlit2eq]
                  exact ih _ _ n (simplify_after_clean (!pref) hcl2 hv1) hcnext2
              obtain ⟨⟨b1, fa1⟩, hr1⟩ := hr1
              cases b1 with
              | true =>
                refine ⟨(true, fa1), ?_⟩
                simp only [_dpll, hup]
                rw [if_neg hemp, if_neg hec]
                simp only [hcbv, hr1]
              | false =>
                obtain ⟨⟨b2, fa2⟩, hr2⟩ := hr2
                cases b2 with
                | true =>
                  refine ⟨(true, fa2), ?_⟩
                  simp only [_dpll, hup]
                  rw [if_neg hemp, if_neg hec]
                  simp only [hcbv, hr1, hr2]
                | false =>
                  refine ⟨(false, []), ?_⟩
                  simp only [_dpll, hup]
                  rw [if_neg hemp, if_neg hec]
                  simp only [hcbv, hr1, hr2]

theorem clauseEval_dedup {α : Valu} {c : List Int} :
    clauseEval α c.dedup = clauseEval α c := by
  rw [clauseEval, clauseEval]
  cases h : c.any (litEval α) with
  | true =>
    rw [List.any_eq_true] at h ⊢
    obtain ⟨l, hl, he⟩ := h
    exact ⟨l, List.mem_dedup.mpr hl, he⟩
  | false =>
    rw [List.any_eq_false] at h ⊢
    intro l hl
    exact h l (List.mem_dedup.mp hl)

/-- **C2** (completeness of the solver).  For every input whose formula
has no satisfying assignment — no valuation of the variables makes every
clause true — the working `solve_cnf` implementation returns
`("UNSAT", None)`: the run terminates (the supplied fuels are
sufficient, since each propagation pass consumes a clause variable and
each branch decision consumes an unassigned variable) and cannot return
`"SAT"` by soundness. -/
theorem solve_cnf_complete (clauses : List (List Int)) (numVars : Nat)
    (hunsat : ∀ α : Valu, ∃ c ∈ clauses, clauseEval α c = false) :
    solve_cnf clauses numVars = some ("UNSAT", none) := by
  have hclean : cleanState [] (_clauses_to_sets clauses) := by
    constructor
    · intro c hc
      rw [_clauses_to_sets, List.mem_map] at hc
      obtain ⟨c0, -, rfl⟩ := hc
      exact List.nodup_dedup c0
    · intro c hc l hl
      rfl
  have hcount : unassignedCount [] numVars < numVars + 1 := by
    rw [unassignedCount]
    have hle : ((Finset.range numVars).filter
        (fun i => (List.lookup (Int.ofNat i + 1) ([] : Assignment)).isNone)).card ≤ numVars := by
      calc ((Finset.range numVars).filter
            (fun i => (List.lookup (Int.ofNat i + 1) ([] : Assignment)).isNone)).card
          ≤ (Finset.range numVars).card := Finset.card_filter_le _ _
        _ = numVars := Finset.card_range numVars
    omega
  obtain ⟨⟨b, fa⟩, hr⟩ :=
    dpll_some (numVars + 1) (_clauses_to_sets clauses) [] numVars hclean hcount
  cases b with
  | false =>
    rw [solve_cnf, hr]
  | true =>
    exfalso
    obtain ⟨-, hsnd⟩ := dpll_sound _ _ _ _ _ hr
    have hsat := hsnd (fun v => (List.lookup v fa).getD false) (getD_respects fa)
    obtain ⟨c, hc, hfalse⟩ := hunsat (fun v => (List.lookup v fa).getD false)
    have hdc : c.dedup ∈ _clauses_to_sets clauses := by
      rw [_clauses_to_sets, List.mem_map]
      exact ⟨c, hc, rfl⟩
    have htrue := hsat _ hdc
    rw [clauseEval_dedup, hfalse] at htrue
    cases htrue

/-- Witness for C2 at the concrete unsatisfiable input of Scenario 2. -/
theorem solve_cnf_complete_witness :
    solve_cnf [[1], [-1]] 1 = some ("UNSAT", none) :=
  solve_cnf_complete [[1], [-1]] 1 (fun α => by
    by_cases h : α 1 = true
    · exact ⟨[-1], by simp, by simp [clauseEval, litEval, h]⟩
    · exact ⟨[1], by simp, by simp [clauseEval, litEval, h]⟩)

-- Concrete runs of the embedded solver matching the spec scenarios 1-5.

example : solve_cnf [[1, 2], [-1, 2], [1, -2]] 2 = some ("SAT", some [1, 2]) := by decide

example : solve_cnf [[1]] 1 = some ("SAT", some [1]) := by decide

example : solve_cnf [[1], [-1]] 1 = some ("UNSAT", none) := by decide

example : solve_cnf [] 3 = some ("SAT", some [-1, -2, -3]) := by decide

example : solve_cnf [[1], [2], [-1, -2]] 2 = some ("UNSAT", none) := by decide
